import Mathlib

/-!
Verification development for the local-inference core of the goose agent
(crates/goose/src/providers/local_inference and the CLI streaming markdown
buffer).  All definitions are shallow embeddings of the Rust source: UTF-8
strings are modelled as their byte sequences (`List Nat`, each entry a byte
value) where the Rust code works on bytes, and as `List Char` where the Rust
code works on `char`s.  Loops are either structural recursions or carry an
explicit fuel argument that is always initialised with a value large enough
for the loop to run to completion, so every definition evaluates by kernel
reduction.
-/

namespace Goose

/-- A UTF-8 byte string, each entry one byte. -/
abbrev ByteStr := List Nat

/-- Byte string of an ASCII Lean string literal (used only for concrete inputs
whose characters are all below 128, where the UTF-8 bytes are the code points). -/
def ascii (s : String) : ByteStr := s.data.map Char.toNat

/-! ## tool_parsing.rs: safe_stream_end -/

/-- The UTF-8 bytes of the `<tool_call>` tag watched by `safe_stream_end`. -/
def toolCallTag : ByteStr := ascii "<tool_call>"

/-- The byte slice `l[a..b]` of Rust. -/
def slice (l : ByteStr) (a b : Nat) : ByteStr := (l.drop a).take (b - a)

/-- The forward brace scan of `safe_stream_end` (tool_parsing.rs lines 83-106):
`d` is the current depth, `i` the index of the head byte, `s` the last recorded
safe position (`none` when never updated; the caller substitutes the initial
value `bytes.len()`).  At `{` with depth 0 the mark is set to the brace, at `}`
returning to depth 0 it advances past the brace, any other byte at depth 0
advances it past that byte. -/
def braceLoop : ByteStr → Int → Nat → Option Nat → Int × Option Nat
  | [], d, _, s => (d, s)
  | b :: l, d, i, s =>
    if b = 123 then braceLoop l (d + 1) (i + 1) (if d = 0 then some i else s)
    else if b = 125 then braceLoop l (d - 1) (i + 1) (if d - 1 = 0 then some (i + 1) else s)
    else braceLoop l d (i + 1) (if d = 0 then some (i + 1) else s)

/-- The `safe_end` value after the brace scan of `safe_stream_end`:
the scan starts from `safe_end = bytes.len()`, so a scan that never updates
the mark yields the full length. -/
def braceSafe (l : ByteStr) : Nat := ((braceLoop l 0 0 none).2).getD l.length

/-- Rust `str::find` for a fixed pattern: the first index at which `pat`
occurs, if any (generic over the element type, used at bytes and chars). -/
def findSub {α : Type} [DecidableEq α] (pat : List α) : List α → Option Nat
  | [] => if pat.isEmpty then some 0 else none
  | b :: l => if pat.isPrefixOf (b :: l) then some 0 else (findSub pat l).map (· + 1)

/-- Rust `str::find` on byte strings. -/
def findSubstr (pat : ByteStr) (l : ByteStr) : Option Nat := findSub pat l

/-- The tail hold-back of `safe_stream_end` (tool_parsing.rs lines 108-122):
the first `start` in `(safe_end - check_len)..safe_end` such that
`bytes[start..safe_end]` is a prefix of `<tool_call>`, defaulting to
`safe_end` itself. -/
def tailHold (l : ByteStr) (safeEnd : Nat) : Nat :=
  let checkLen := min toolCallTag.length l.length
  ((List.range' (safeEnd - checkLen) (safeEnd - (safeEnd - checkLen))).find?
      (fun start => (slice l start safeEnd).isPrefixOf toolCallTag)).getD safeEnd

/-- `safe_stream_end(text)` (tool_parsing.rs lines 78-125): the byte length of
the prefix that is safe to stream, `safe_end.min(xml_hold).min(tail_hold)`. -/
def safeStreamEnd (l : ByteStr) : Nat :=
  let xmlHold := (findSubstr toolCallTag l).getD l.length
  let safeEnd := braceSafe l
  min (min safeEnd xmlHold) (tailHold l safeEnd)

/-! ## Rust `str::trim_end` / `trim_start` / `trim` on UTF-8 bytes

Rust trims characters with the Unicode `White_Space` property.  On valid
UTF-8 these are the single bytes 09-0D and 20, the two-byte sequences for
U+0085 and U+00A0, and the three-byte sequences for U+1680, U+2000-U+200A,
U+2028, U+2029, U+202F, U+205F and U+3000. -/

/-- Single-byte (ASCII) whitespace. -/
def isWs1 (a : Nat) : Bool := a = 9 || a = 10 || a = 11 || a = 12 || a = 13 || a = 32

/-- Two-byte UTF-8 whitespace, `lead` then `cont` byte (U+0085, U+00A0). -/
def isWs2 (lead cont : Nat) : Bool := lead = 194 && (cont = 133 || cont = 160)

/-- Three-byte UTF-8 whitespace (U+1680, U+2000-U+200A, U+2028, U+2029,
U+202F, U+205F, U+3000). -/
def isWs3 (lead mid cont : Nat) : Bool :=
  (lead = 225 && mid = 154 && cont = 128) ||
  (lead = 226 && mid = 128 && ((128 ≤ cont && cont ≤ 138) || cont = 168 || cont = 169 || cont = 175)) ||
  (lead = 226 && mid = 129 && cont = 159) ||
  (lead = 227 && mid = 128 && cont = 128)

/-- Drop the trailing whitespace characters of a byte string given in
reversed order (so the head is the last byte of the text). -/
def dropWsRev : ByteStr → ByteStr
  | [] => []
  | a :: rest =>
    if isWs1 a then dropWsRev rest
    else match rest with
      | [] => a :: rest
      | b :: rest2 =>
        if isWs2 b a then dropWsRev rest2
        else match rest2 with
          | [] => a :: rest
          | c :: rest3 => if isWs3 c b a then dropWsRev rest3 else a :: rest

/-- Drop the leading whitespace characters of a byte string. -/
def dropWsFwd : ByteStr → ByteStr
  | [] => []
  | a :: rest =>
    if isWs1 a then dropWsFwd rest
    else match rest with
      | [] => a :: rest
      | b :: rest2 =>
        if isWs2 a b then dropWsFwd rest2
        else match rest2 with
          | [] => a :: rest
          | c :: rest3 => if isWs3 a b c then dropWsFwd rest3 else a :: rest

/-- Rust `str::trim_end`. -/
def rustTrimEnd (l : ByteStr) : ByteStr := (dropWsRev l.reverse).reverse

/-- Rust `str::trim_start`. -/
def rustTrimStart (l : ByteStr) : ByteStr := dropWsFwd l

/-- Rust `str::trim`. -/
def rustTrim (l : ByteStr) : ByteStr := rustTrimStart (rustTrimEnd l)

/-! ## tool_parsing.rs: split_content_and_tool_calls (backward brace scan) -/

/-- The backward scan of `split_content_and_tool_calls` (tool_parsing.rs lines
33-50), looking for the `{` matching the final `}`.  The list is the text in
reversed order, `i` is the original index of the head byte, `d` the depth of
closing braces seen so far.  At a `{` the depth is decremented and the scan
stops when it reaches 0. -/
def backScan : ByteStr → Nat → Int → Option Nat
  | [], _, _ => none
  | b :: l, i, d =>
    if b = 125 then backScan l (i - 1) (d + 1)
    else if b = 123 then
      if d - 1 = 0 then some i else backScan l (i - 1) (d - 1)
    else backScan l (i - 1) d

/-- Index of the `{` opening the final top-level JSON object of `l`, per the
backward scan of `split_content_and_tool_calls`. -/
def jsonStart (l : ByteStr) : Option Nat := backScan l.reverse (l.length - 1) 0

/-- Forward brace balance of a byte string: `+1` for `{`, `-1` for `}`. -/
def fDepth : ByteStr → Int
  | [] => 0
  | b :: l => (if b = 123 then 1 else if b = 125 then -1 else 0) + fDepth l

/-! ## Model of `serde_json` values and parsing

`split_content_and_tool_calls` and `extract_tool_call_messages` call into the
`serde_json` library.  The library is modelled here by a recursive-descent
parser for the JSON grammar over UTF-8 bytes: objects, arrays, strings with
escapes (including `\uXXXX` with surrogate pairs), numbers (kept as their raw
token; numeric range errors are not modelled), `true`/`false`/`null`, with the
library's whitespace set (space, tab, LF, CR) and its nesting limit of 128.
Object members are kept in insertion order with last-wins on duplicate keys,
which matches the library's observable `get` behaviour. -/

/-- A parsed JSON value.  String payloads are the decoded UTF-8 bytes. -/
inductive JValue where
  | null
  | bool (b : Bool)
  | num (raw : ByteStr)
  | str (s : ByteStr)
  | arr (items : List JValue)
  | obj (members : List (ByteStr × JValue))

/-- Insert into an object member list: replace the value of an existing key,
else append (serde_json `Map::insert`). -/
def insertKV (kvs : List (ByteStr × JValue)) (k : ByteStr) (v : JValue) :
    List (ByteStr × JValue) :=
  if kvs.any (fun kv => kv.1 = k) then
    kvs.map (fun kv => if kv.1 = k then (k, v) else kv)
  else kvs ++ [(k, v)]

/-- `Value::get(key)`: member lookup on objects, `none` on anything else. -/
def jget (v : JValue) (k : ByteStr) : Option JValue :=
  match v with
  | .obj kvs => (kvs.find? (fun kv => kv.1 = k)).map (·.2)
  | _ => none

/-- `Value::as_array`. -/
def jAsArr : JValue → Option (List JValue)
  | .arr xs => some xs
  | _ => none

/-- `Value::as_str`. -/
def jAsStr : JValue → Option ByteStr
  | .str s => some s
  | _ => none

/-- `Value::as_object`. -/
def jAsObj : JValue → Option (List (ByteStr × JValue))
  | .obj kvs => some kvs
  | _ => none

/-- JSON whitespace bytes accepted by serde_json between tokens. -/
def jIsWs (b : Nat) : Bool := b = 32 || b = 9 || b = 10 || b = 13

/-- Skip JSON whitespace. -/
def skipWs (l : ByteStr) : ByteStr := l.dropWhile jIsWs

/-- Value of a hex digit byte. -/
def hexVal (b : Nat) : Option Nat :=
  if 48 ≤ b && b ≤ 57 then some (b - 48)
  else if 97 ≤ b && b ≤ 102 then some (b - 87)
  else if 65 ≤ b && b ≤ 70 then some (b - 55)
  else none

/-- UTF-8 encoding of a code point. -/
def utf8Encode (cp : Nat) : ByteStr :=
  if cp < 128 then [cp]
  else if cp < 2048 then [192 + cp / 64, 128 + cp % 64]
  else if cp < 65536 then [224 + cp / 4096, 128 + cp / 64 % 64, 128 + cp % 64]
  else [240 + cp / 262144, 128 + cp / 4096 % 64, 128 + cp / 64 % 64, 128 + cp % 64]

/-- Decode one JSON string escape (after the backslash): returns the decoded
bytes and the remaining input.  `\uXXXX` high surrogates must be followed by a
`\uXXXX` low surrogate; lone surrogates are an error, as in serde_json. -/
def decodeEscape : ByteStr → Option (ByteStr × ByteStr)
  | 34 :: r => some ([34], r)
  | 92 :: r => some ([92], r)
  | 47 :: r => some ([47], r)
  | 98 :: r => some ([8], r)
  | 102 :: r => some ([12], r)
  | 110 :: r => some ([10], r)
  | 114 :: r => some ([13], r)
  | 116 :: r => some ([9], r)
  | 117 :: h1 :: h2 :: h3 :: h4 :: r =>
    match hexVal h1, hexVal h2, hexVal h3, hexVal h4 with
    | some a, some b, some c, some d =>
      let c1 := ((a * 16 + b) * 16 + c) * 16 + d
      if 55296 ≤ c1 && c1 ≤ 56319 then
        -- high surrogate: a low surrogate escape must follow
        match r with
        | 92 :: 117 :: k1 :: k2 :: k3 :: k4 :: r2 =>
          match hexVal k1, hexVal k2, hexVal k3, hexVal k4 with
          | some a2, some b2, some c2, some d2 =>
            let low := ((a2 * 16 + b2) * 16 + c2) * 16 + d2
            if 56320 ≤ low && low ≤ 57343 then
              some (utf8Encode (65536 + (c1 - 55296) * 1024 + (low - 56320)), r2)
            else none
          | _, _, _, _ => none
        | _ => none
      else if 56320 ≤ c1 && c1 ≤ 57343 then none
      else some (utf8Encode c1, r)
    | _, _, _, _ => none
  | _ => none

/-- Parse the body of a JSON string after the opening quote, with fuel.
Returns the decoded content and the input after the closing quote.
Unescaped control bytes below 0x20 are an error. -/
def jParseStr : Nat → ByteStr → Option (ByteStr × ByteStr)
  | 0, _ => none
  | _, [] => none
  | fuel + 1, b :: rest =>
    if b = 34 then some ([], rest)
    else if b = 92 then
      match decodeEscape rest with
      | some (dec, rest2) => (jParseStr fuel rest2).map (fun p => (dec ++ p.1, p.2))
      | none => none
    else if b < 32 then none
    else (jParseStr fuel rest).map (fun p => (b :: p.1, p.2))

/-- Take a run of decimal digit bytes. -/
def takeDigits (l : ByteStr) : ByteStr × ByteStr :=
  (l.takeWhile (fun b => 48 ≤ b && b ≤ 57), l.dropWhile (fun b => 48 ≤ b && b ≤ 57))

/-- Parse a JSON number token (raw bytes kept): optional `-`, integer part
without leading zeros, optional fraction, optional exponent. -/
def jParseNum (l : ByteStr) : Option (ByteStr × ByteStr) := do
  let (sign, l1) := match l with
    | 45 :: r => ([45], r)
    | _ => ([], l)
  let (ipart, l2) ← match l1 with
    | 48 :: r => some ([48], r)
    | _ =>
      let (ds, r) := takeDigits l1
      if ds.isEmpty then none else some (ds, r)
  let (fpart, l3) ← match l2 with
    | 46 :: r =>
      let (ds, r2) := takeDigits r
      if ds.isEmpty then none else some (46 :: ds, r2)
    | _ => some ([], l2)
  let (epart, l4) ← match l3 with
    | 101 :: r | 69 :: r =>
      let (es, r1) := match r with
        | 43 :: r2 => ([43], r2)
        | 45 :: r2 => ([45], r2)
        | _ => ([], r)
      let (ds, r2) := takeDigits r1
      if ds.isEmpty then none else some (101 :: es ++ ds, r2)
    | _ => some ([], l3)
  some (sign ++ ipart ++ fpart ++ epart, l4)

/-- Parsing mode: a plain value, the items of an array being accumulated, or
the members of an object being accumulated. -/
inductive PMode where
  | val
  | items (acc : List JValue)
  | members (acc : List (ByteStr × JValue))

/-- The recursive-descent JSON parser: `fuel` makes the recursion structural
(the top-level wrappers pass more fuel than bytes, which always suffices since
every recursive call consumes input), `depth` is serde_json's remaining
nesting budget.  The input must start at a non-whitespace byte. -/
def jParseGo : Nat → Nat → PMode → ByteStr → Option (JValue × ByteStr)
  | 0, _, _, _ => none
  | fuel + 1, depth, mode, l =>
    match mode with
    | .val =>
      match l with
      | [] => none
      | b :: rest =>
        if b = 110 then
          match rest with
          | 117 :: 108 :: 108 :: r => some (.null, r)
          | _ => none
        else if b = 116 then
          match rest with
          | 114 :: 117 :: 101 :: r => some (.bool true, r)
          | _ => none
        else if b = 102 then
          match rest with
          | 97 :: 108 :: 115 :: 101 :: r => some (.bool false, r)
          | _ => none
        else if b = 34 then
          (jParseStr (fuel + 1) rest).map (fun p => (.str p.1, p.2))
        else if b = 123 then
          if depth = 0 then none
          else
            match skipWs rest with
            | 125 :: r => some (.obj [], r)
            | r => jParseGo fuel (depth - 1) (.members []) r
        else if b = 91 then
          if depth = 0 then none
          else
            match skipWs rest with
            | 93 :: r => some (.arr [], r)
            | r => jParseGo fuel (depth - 1) (.items []) r
        else
          (jParseNum l).map (fun p => (.num p.1, p.2))
    | .items acc => do
      let (v, r) ← jParseGo fuel depth .val l
      match skipWs r with
      | 44 :: r2 => jParseGo fuel depth (.items (acc ++ [v])) (skipWs r2)
      | 93 :: r2 => some (.arr (acc ++ [v]), r2)
      | _ => none
    | .members acc =>
      match l with
      | 34 :: rest => do
        let (k, r1) ← jParseStr (fuel + 1) rest
        match skipWs r1 with
        | 58 :: r2 => do
          let (v, r3) ← jParseGo fuel depth .val (skipWs r2)
          match skipWs r3 with
          | 44 :: r4 =>
            match skipWs r4 with
            | 34 :: r5 => jParseGo fuel depth (.members (insertKV acc k v)) (34 :: r5)
            | _ => none
          | 125 :: r4 => some (.obj (insertKV acc k v), r4)
          | _ => none
        | _ => none
      | _ => none

/-- `serde_json::from_str::<Value>`: parse a complete JSON document
(trailing whitespace allowed, anything else is an error). -/
def jsonParse (l : ByteStr) : Option JValue :=
  match jParseGo (l.length + 1) 128 .val (skipWs l) with
  | some (v, r) => if skipWs r = [] then some v else none
  | none => none

/-- `serde_json::from_str::<Map<String, Value>>`: a complete JSON document
that is an object. -/
def jsonParseObj (l : ByteStr) : Option (List (ByteStr × JValue)) :=
  match jsonParse l with
  | some (.obj kvs) => some kvs
  | _ => none

/-! ## tool_parsing.rs: split_content_and_tool_calls and
extract_tool_call_messages -/

/-- The object key `"tool_calls"`. -/
def toolCallsKey : ByteStr := ascii "tool_calls"

/-- `split_content_and_tool_calls(text)` (tool_parsing.rs lines 27-72):
trim trailing whitespace; if the result does not end in `}`, no tool call;
scan backwards for the matching `{`; parse the candidate block as JSON and
require a `tool_calls` array; on success return the trimmed text before the
block and the block itself. -/
def splitContentAndToolCalls (text : ByteStr) : ByteStr × Option ByteStr :=
  let trimmed := rustTrimEnd text
  if trimmed.getLast? ≠ some 125 then (text, none)
  else
    match jsonStart trimmed with
    | none => (text, none)
    | some start =>
      let jsonStr := trimmed.drop start
      match jsonParse jsonStr with
      | none => (text, none)
      | some parsed =>
        if ((jget parsed toolCallsKey).bind jAsArr).isSome then
          (rustTrimEnd (trimmed.take start), some jsonStr)
        else (text, none)

/-- The id attached to a tool-request message: either the id string found in
the entry, or a fresh UUID generated by `Uuid::new_v4` (modelled as an opaque
marker, since the generated value is random). -/
inductive IdSpec where
  | given (s : ByteStr)
  | fresh

/-- A tool-request message as produced by `extract_tool_call_messages` /
`extract_xml_tool_call_messages`: an assistant message holding one
`CallToolRequestParams` and carrying the per-stream message id. -/
structure ToolReqMsg where
  name : ByteStr
  arguments : Option (List (ByteStr × JValue))
  toolId : IdSpec
  msgId : ByteStr

/-- Conversion of one entry of the `tool_calls` array (tool_parsing.rs lines
141-186): OpenAI shape (`function.name` / string `function.arguments`,
defaulting to `"{}"` when absent or not a string) if a `function` member is
present, else native shape (`name` / object-or-string `arguments`); entries
with an empty name produce no message. -/
def entryMsg (msgId : ByteStr) (tc : JValue) : Option ToolReqMsg :=
  let (name, args) :=
    match jget tc (ascii "function") with
    | some func =>
      let n := ((jget func (ascii "name")).bind jAsStr).getD []
      let argsStr := ((jget func (ascii "arguments")).bind jAsStr).getD (ascii "\x7b\x7d")
      (n, jsonParseObj argsStr)
    | none =>
      let n := ((jget tc (ascii "name")).bind jAsStr).getD []
      let args :=
        match (jget tc (ascii "arguments")).bind jAsObj with
        | some kvs => some kvs
        | none =>
          match (jget tc (ascii "arguments")).bind jAsStr with
          | some s => jsonParseObj s
          | none => none
      (n, args)
  if name.isEmpty then none
  else
    let tid :=
      match (jget tc (ascii "id")).bind jAsStr with
      | some s => IdSpec.given s
      | none => IdSpec.fresh
    some { name := name, arguments := args, toolId := tid, msgId := msgId }

/-- `extract_tool_call_messages(tool_calls_json, message_id)` (tool_parsing.rs
lines 130-190): parse the JSON, require a `tool_calls` array, and convert each
entry, skipping entries with an empty name. -/
def extractToolCallMessages (toolCallsJson : ByteStr) (msgId : ByteStr) :
    List ToolReqMsg :=
  match jsonParse toolCallsJson with
  | none => []
  | some parsed =>
    match (jget parsed toolCallsKey).bind jAsArr with
    | none => []
    | some tcs => tcs.filterMap (entryMsg msgId)

/-! ## local_model_registry.rs: settings

The `f32` fields only ever feed exact comparisons against `1.0` / `0.0` and
are passed through to samplers verbatim, so they are modelled as rationals
(the value denoted by the float; NaN payloads are outside the model). -/

/-- `SamplingConfig` (local_model_registry.rs lines 11-25). -/
inductive SamplingConfig where
  | greedy
  | temperature (temperature : ℚ) (topK : Int) (topP : ℚ) (minP : ℚ) (seed : Option Nat)
  | mirostatV2 (tau : ℚ) (eta : ℚ) (seed : Option Nat)
  deriving DecidableEq

/-- `ModelSettings` (local_model_registry.rs lines 39-63). -/
structure ModelSettings where
  contextSize : Option Nat := none
  maxOutputTokens : Option Nat := none
  sampling : SamplingConfig := .temperature (4/5) 40 (19/20) (1/20) none
  repeatPenalty : ℚ := 1
  repeatLastN : Int := 64
  frequencyPenalty : ℚ := 0
  presencePenalty : ℚ := 0
  nBatch : Option Nat := none
  nGpuLayers : Option Nat := none
  useMlock : Bool := false
  flashAttention : Option Bool := none
  nThreads : Option Int := none
  nativeToolCalling : Bool := false
  useJinja : Bool := false
  deriving DecidableEq

/-! ## inference_engine.rs: context sizing -/

/-- `context_cap(settings, context_limit, n_ctx_train, memory_max_ctx)`
(inference_engine.rs lines 83-110): a user-set `context_size` is used
verbatim; otherwise `context_limit` if non-zero, else `n_ctx_train`, clamped
to `memory_max_ctx` when that is strictly smaller. -/
def contextCap (settings : ModelSettings) (contextLimit nCtxTrain : Nat)
    (memoryMaxCtx : Option Nat) : Nat :=
  match settings.contextSize with
  | some ctxSize => ctxSize
  | none =>
    let limit := if contextLimit > 0 then contextLimit else nCtxTrain
    match memoryMaxCtx with
    | some memMax => if memMax < limit then memMax else limit
    | none => limit

/-- `effective_context_size` (inference_engine.rs lines 112-130):
`min(prompt_token_count + 512, context_cap ...)`. -/
def effectiveContextSize (promptTokenCount : Nat) (settings : ModelSettings)
    (contextLimit nCtxTrain : Nat) (memoryMaxCtx : Option Nat) : Nat :=
  let limit := contextCap settings contextLimit nCtxTrain memoryMaxCtx
  min (promptTokenCount + 512) limit

/-- The `ContextLengthExceeded` message of `validate_and_compute_context`
(inference_engine.rs lines 222-226), as its character list. -/
def ctxErrorMessage (promptTokenCount memMax : Nat) : List Char :=
  "Prompt (".data ++ (Nat.repr promptTokenCount).data ++
    " tokens) exceeds estimated memory capacity (".data ++ (Nat.repr memMax).data ++
    " tokens). Try a smaller model or reduce conversation length.".data

/-- `validate_and_compute_context` (inference_engine.rs lines 204-230), with
the model/runtime probes (`n_ctx_train`, `estimate_max_context_for_memory`)
abstracted into the `nCtxTrain` and `memoryMaxCtx` arguments: computes the
effective context size and fails with `ContextLengthExceeded` when the prompt
exceeds the memory estimate. -/
def validateAndComputeContext (promptTokenCount : Nat)
    (contextLimit nCtxTrain : Nat) (memoryMaxCtx : Option Nat)
    (settings : ModelSettings) : Except (List Char) (Nat × Nat) :=
  let effectiveCtx :=
    effectiveContextSize promptTokenCount settings contextLimit nCtxTrain memoryMaxCtx
  match memoryMaxCtx with
  | some memMax =>
    if promptTokenCount > memMax then
      .error (ctxErrorMessage promptTokenCount memMax)
    else .ok (promptTokenCount, effectiveCtx)
  | none => .ok (promptTokenCount, effectiveCtx)

/-! ## inference_engine.rs: build_sampler -/

/-- Symbolic `LlamaSampler` values: each constructor records one constructor
call of the native sampler API with its arguments. -/
inductive LlamaSampler where
  | penalties (repeatLastN : Int) (repeatPenalty frequencyPenalty presencePenalty : ℚ)
  | greedy
  | topK (k : Int)
  | topP (p : ℚ) (minKeep : Nat)
  | minP (p : ℚ) (minKeep : Nat)
  | temp (t : ℚ)
  | dist (seed : Nat)
  | mirostatV2 (seed : Nat) (tau eta : ℚ)
  | chainSimple (samplers : List LlamaSampler)

/-- `build_sampler(settings)` (inference_engine.rs lines 153-200): push a
penalties sampler when any penalty is active, then the samplers of the
configured strategy; a single sampler is returned unwrapped (`Vec::pop` of a
one-element vector), otherwise the vector is wrapped in `chain_simple`. -/
def buildSampler (settings : ModelSettings) : LlamaSampler :=
  let hasPenalties := settings.repeatPenalty ≠ 1 ∨ settings.frequencyPenalty ≠ 0 ∨
    settings.presencePenalty ≠ 0
  let samplers : List LlamaSampler :=
    (if hasPenalties then
      [.penalties settings.repeatLastN settings.repeatPenalty
        settings.frequencyPenalty settings.presencePenalty]
    else []) ++
    (match settings.sampling with
      | .greedy => [.greedy]
      | .temperature temperature topK topP minP seed =>
        [.topK topK, .topP topP 1, .minP minP 1, .temp temperature, .dist (seed.getD 0)]
      | .mirostatV2 tau eta seed => [.mirostatV2 (seed.getD 0) tau eta])
  match samplers with
  | [s] => s
  | l => .chainSimple l

/-- The sampler chain as the specification describes it (spec section 4.4),
stated independently of the code: a penalties sampler is prepended exactly
when `repeat_penalty != 1.0` or `frequency_penalty != 0` or
`presence_penalty != 0`; then exactly one of Greedy, the Temperature
sub-chain `top_k -> top_p(1) -> min_p(1) -> temperature -> distribution(seed)`,
or `MirostatV2{tau, eta, seed}` is appended; a resulting single sub-sampler is
returned unwrapped, otherwise the samplers are wrapped in a chain. -/
def specSamplerChain (settings : ModelSettings) : LlamaSampler :=
  let strategy : List LlamaSampler :=
    match settings.sampling with
    | .greedy => [.greedy]
    | .temperature temperature topK topP minP seed =>
      [.topK topK, .topP topP 1, .minP minP 1, .temp temperature, .dist (seed.getD 0)]
    | .mirostatV2 tau eta seed => [.mirostatV2 (seed.getD 0) tau eta]
  let chain : List LlamaSampler :=
    if settings.repeatPenalty ≠ 1 ∨ settings.frequencyPenalty ≠ 0 ∨
        settings.presencePenalty ≠ 0 then
      .penalties settings.repeatLastN settings.repeatPenalty
        settings.frequencyPenalty settings.presencePenalty :: strategy
    else strategy
  match chain with
  | [s] => s
  | l => .chainSimple l

/-! ## local_model_registry.rs: registry and featured-model sync

Strings on this interface (model ids, paths) are modelled as `List Char`.
The filesystem and the download manager are modelled as oracles in a
`RegistryEnv`; `save()` performs I/O, so its outcome is passed in as an
explicit `Except` argument. -/

/-- Rust `str::rsplit_once(c)`: split at the last occurrence of `c`. -/
def rsplitOnceChar (c : Char) : List Char → Option (List Char × List Char)
  | [] => none
  | a :: rest =>
    match rsplitOnceChar c rest with
    | some (x, y) => some (a :: x, y)
    | none => if a = c then some ([], rest) else none

/-- `parse_model_spec(spec)` (hf_models.rs lines 346-359): split at the last
`:`, and require a `/` in the repo part; errors are modelled as `none`. -/
def parseModelSpec (spec : List Char) : Option (List Char × List Char) :=
  match rsplitOnceChar ':' spec with
  | none => none
  | some (repoId, quant) => if repoId.contains '/' then some (repoId, quant) else none

/-- `model_id_from_repo(repo_id, quantization)` (local_model_registry.rs
lines 306-308). -/
def modelIdFromRepo (repoId quant : List Char) : List Char := repoId ++ ':' :: quant

/-- `FEATURED_MODELS` (local_model_registry.rs lines 95-100). -/
def featuredModels : List (List Char) :=
  [("bartowski/Llama-3.2-1B-Instruct-GGUF:Q4_K_M").data,
   ("bartowski/Llama-3.2-3B-Instruct-GGUF:Q4_K_M").data,
   ("bartowski/Hermes-2-Pro-Mistral-7B-GGUF:Q4_K_M").data,
   ("bartowski/Mistral-Small-24B-Instruct-2501-GGUF:Q4_K_M").data]

/-- `is_featured_model(model_id)` (local_model_registry.rs lines 103-112). -/
def isFeaturedModel (modelId : List Char) : Bool :=
  featuredModels.any fun spec =>
    match parseModelSpec spec with
    | some (repoId, quant) => decide (modelIdFromRepo repoId quant = modelId)
    | none => false

/-- `LocalModelEntry` (local_model_registry.rs lines 124-136). -/
structure RegEntry where
  id : List Char
  displayName : List Char
  repoId : List Char
  filename : List Char
  quantization : List Char
  localPath : List Char
  sourceUrl : List Char
  settings : ModelSettings
  sizeBytes : Nat
  deriving DecidableEq

/-- Oracles for the externals consulted by the registry: file existence by
path, and download-manager progress presence by download id. -/
structure RegistryEnv where
  fileExists : List Char → Bool
  downloadProgress : List Char → Bool

/-- `LocalModelEntry::is_downloaded` (local_model_registry.rs lines 139-141). -/
def entryIsDownloaded (env : RegistryEnv) (e : RegEntry) : Bool :=
  env.fileExists e.localPath

/-- `LocalModelEntry::is_downloading` (local_model_registry.rs lines 143-147):
the download manager is keyed by `id + "-model"`. -/
def entryIsDownloading (env : RegistryEnv) (e : RegEntry) : Bool :=
  env.downloadProgress (e.id ++ ("-model").data)

/-- The retention predicate of `sync_with_featured` (local_model_registry.rs
line 254). -/
def keepEntry (env : RegistryEnv) (m : RegEntry) : Bool :=
  entryIsDownloaded env m || entryIsDownloading env m || isFeaturedModel m.id

/-- The insertion loop of `sync_with_featured` (local_model_registry.rs lines
245-250): push each featured entry whose id is not yet present, tracking
whether anything was pushed. -/
def syncInsertLoop : List RegEntry → Bool → List RegEntry → List RegEntry × Bool
  | models, changed, [] => (models, changed)
  | models, changed, e :: rest =>
    if models.any (fun m => decide (m.id = e.id)) then syncInsertLoop models changed rest
    else syncInsertLoop (models ++ [e]) true rest

/-- `sync_with_featured(featured_entries)` (local_model_registry.rs lines
242-262): insert missing featured entries, retain only downloaded /
downloading / featured entries, and when anything changed call `save`,
discarding its result (`let _ = self.save();`).  Returns the new model list
and whether `save` was invoked. -/
def syncWithFeatured (env : RegistryEnv) (saveResult : Except (List Char) Unit)
    (models featured : List RegEntry) : List RegEntry × Bool :=
  let afterInsert := (syncInsertLoop models false featured).1
  let changedByInsert := (syncInsertLoop models false featured).2
  let retained := afterInsert.filter (keepEntry env)
  let changed := changedByInsert || decide (retained.length ≠ afterInsert.length)
  if changed then
    let _ := saveResult
    (retained, true)
  else (retained, false)

/-! ## goose-cli streaming_buffer.rs: MarkdownBuffer

The buffer operates on `char`s (the tokenizing regex) and on ASCII bytes
(newlines, `#`, `|`, fences); every slicing position is at a character
boundary, so the text is modelled as `List Char` with positions as character
offsets. -/

/-- The backtick character. -/
def btick : Char := Char.ofNat 96

/-- Rust `char::is_whitespace` (Unicode White_Space). -/
def rustIsWsChar (c : Char) : Bool :=
  let n := c.toNat
  (9 ≤ n && n ≤ 13) || n = 32 || n = 133 || n = 160 || n = 5760 ||
    (8192 ≤ n && n ≤ 8202) || n = 8232 || n = 8233 || n = 8239 || n = 8287 || n = 12288

/-- Rust `str::trim` on characters. -/
def rustTrimChars (l : List Char) : List Char :=
  ((l.dropWhile rustIsWsChar).reverse.dropWhile rustIsWsChar).reverse

/-- Characters excluded from the plain-text token class of `INLINE_TOKEN_RE`. -/
def mdSpecial (c : Char) : Bool :=
  c = '\\' || c = '*' || c = '_' || c = btick || c = '~' || c = '[' || c = ']' ||
    c = '!' || c = '(' || c = ')'

/-- The token of `INLINE_TOKEN_RE` matched at the head of the text, and the
rest.  The regex alternatives are tried leftmost-first: escape `\.` (where
`.` excludes the newline), backtick runs, `***`/`**`/`*`, `___`/`__`/`_`,
`~~`, `![`, `](`, `[`, `]`, `)`, a greedy run of non-special characters, then
any single character. -/
def nextToken : List Char → List Char × List Char
  | [] => ([], [])
  | c :: rest =>
    if c = '\\' then
      match rest with
      | d :: rest2 => if d ≠ '\n' then ([c, d], rest2) else ([c], rest)
      | [] => ([c], rest)
    else if c = btick then
      let run := (c :: rest).takeWhile (· = btick)
      (run, (c :: rest).drop run.length)
    else if c = '*' || c = '_' then
      let run := (c :: rest).takeWhile (· = c)
      let tok := run.take 3
      (tok, (c :: rest).drop tok.length)
    else if c = '~' then
      match rest with
      | d :: rest2 => if d = '~' then ([c, d], rest2) else ([c], rest)
      | [] => ([c], rest)
    else if c = '!' then
      match rest with
      | d :: rest2 => if d = '[' then ([c, d], rest2) else ([c], rest)
      | [] => ([c], rest)
    else if c = ']' then
      match rest with
      | d :: rest2 => if d = '(' then ([c, d], rest2) else ([c], rest)
      | [] => ([c], rest)
    else if c = '[' || c = '(' || c = ')' then ([c], rest)
    else
      let run := (c :: rest).takeWhile (fun ch => !mdSpecial ch)
      (run, (c :: rest).drop run.length)

/-- `ParseState` (streaming_buffer.rs lines 63-77). -/
structure MdState where
  inCodeBlock : Bool := false
  codeFenceChar : Char := Char.ofNat 0
  codeFenceLen : Nat := 0
  inTable : Bool := false
  pendingHeading : Bool := false
  inInlineCode : Bool := false
  inlineCodeLen : Nat := 0
  inBold : Bool := false
  inItalic : Bool := false
  inStrikethrough : Bool := false
  inLinkText : Bool := false
  inLinkUrl : Bool := false
  inImageAlt : Bool := false
  deriving DecidableEq

/-- `ParseState::is_clean` (streaming_buffer.rs lines 81-92). -/
def isClean (s : MdState) : Bool :=
  !s.inCodeBlock && !s.inTable && !s.pendingHeading && !s.inInlineCode && !s.inBold &&
    !s.inItalic && !s.inStrikethrough && !s.inLinkText && !s.inLinkUrl && !s.inImageAlt

/-- `process_inline_token` (streaming_buffer.rs lines 294-365). -/
def processInlineToken (state : MdState) (token : List Char) : MdState :=
  if token.head? = some '\\' && token.length = 2 then state
  else if token.head? = some btick then
    let tickCount := token.length
    if state.inInlineCode then
      if tickCount = state.inlineCodeLen then
        { state with inInlineCode := false, inlineCodeLen := 0 }
      else state
    else { state with inInlineCode := true, inlineCodeLen := tickCount }
  else if state.inInlineCode then state
  else if token = ['*', '*', '*'] || token = ['_', '_', '_'] then
    if state.inBold && state.inItalic then { state with inBold := false, inItalic := false }
    else if state.inBold then { state with inItalic := !state.inItalic }
    else if state.inItalic then { state with inBold := !state.inBold }
    else { state with inBold := true, inItalic := true }
  else if token = ['*', '*'] || token = ['_', '_'] then { state with inBold := !state.inBold }
  else if token = ['*'] || token = ['_'] then { state with inItalic := !state.inItalic }
  else if token = ['~', '~'] then { state with inStrikethrough := !state.inStrikethrough }
  else if token = ['!', '['] then { state with inImageAlt := true }
  else if token = ['['] then
    if !state.inLinkText && !state.inImageAlt then { state with inLinkText := true } else state
  else if token = [']', '('] then
    if state.inLinkText then { state with inLinkText := false, inLinkUrl := true }
    else if state.inImageAlt then { state with inImageAlt := false, inLinkUrl := true }
    else state
  else if token = [')'] then
    if state.inLinkUrl then { state with inLinkUrl := false } else state
  else state

/-- `check_code_fence(line, state)` (streaming_buffer.rs lines 246-291):
`line` is the text from the current position to the end of the buffer.
Returns the position after the fence line (relative to `line`) when a fence
was opened or closed, together with the updated state. -/
def checkCodeFence (line : List Char) (state : MdState) : Option Nat × MdState :=
  let trimmed := line.dropWhile rustIsWsChar
  match trimmed.head? with
  | none => (none, state)
  | some fenceChar =>
    if fenceChar ≠ btick && fenceChar ≠ '~' then (none, state)
    else
      let fenceLen := (trimmed.takeWhile (· = fenceChar)).length
      if fenceLen < 3 then (none, state)
      else
        let afterFence := trimmed.drop fenceLen
        if state.inCodeBlock then
          if fenceChar = state.codeFenceChar && state.codeFenceLen ≤ fenceLen &&
              (afterFence.isEmpty || afterFence.head? = some '\n' ||
                (rustTrimChars afterFence).isEmpty) then
            let state' := { state with inCodeBlock := false, codeFenceChar := Char.ofNat 0, codeFenceLen := 0 }
            match line.findIdx? (· = '\n') with
            | some newlinePos => (some (newlinePos + 1), state')
            | none => (some line.length, state')
          else (none, state)
        else
          let state' := { state with inCodeBlock := true, codeFenceChar := fenceChar, codeFenceLen := fenceLen }
          match line.findIdx? (· = '\n') with
          | some newlinePos => (some (newlinePos + 1), state')
          | none => (some line.length, state')

/-- `process_line_start(state, pos)` (streaming_buffer.rs lines 197-241). -/
def processLineStart (buffer : List Char) (pos : Nat) (state : MdState) :
    Option Nat × MdState :=
  let remaining := buffer.drop pos
  let state := if state.pendingHeading then { state with pendingHeading := false } else state
  match checkCodeFence remaining state with
  | (some fenceResult, state') => (some (pos + fenceResult), state')
  | (none, state') =>
    let state := state'
    if state.inCodeBlock then (none, state)
    else
      let afterHeading :=
        if remaining.head? = some '#' then
          let hashes := (remaining.takeWhile (· = '#')).length
          if hashes ≤ 6 then
            let afterHashes := remaining.drop hashes
            if afterHashes.isEmpty || afterHashes.head? = some ' ' ||
                afterHashes.head? = some '\n' then
              some { state with pendingHeading := true }
            else none
          else none
        else none
      match afterHeading with
      | some state' => (none, state')
      | none =>
        if remaining.head? = some '|' then (none, { state with inTable := true })
        else if (remaining.head? = some '\n' || remaining.isEmpty) && state.inTable then
          (some (pos + 1), { state with inTable := false })
        else if state.inTable && remaining.head? ≠ some '|' then
          (none, { state with inTable := false })
        else (none, state)

/-- The token loop of `find_safe_end` over one line (streaming_buffer.rs lines
170-179): process each `INLINE_TOKEN_RE` token, recording the end of the last
token at which the state is clean.  `pos` is the absolute offset of the head
of `line`. -/
def mdTokenLoop : Nat → MdState → Nat → Nat → List Char → MdState × Nat
  | 0, state, lastSafe, _, _ => (state, lastSafe)
  | fuel + 1, state, lastSafe, pos, line =>
    match line with
    | [] => (state, lastSafe)
    | c :: rest =>
      let (tok, rest') := nextToken (c :: rest)
      let state' := processInlineToken state tok
      let tokenEnd := pos + tok.length
      let lastSafe' := if isClean state' then tokenEnd else lastSafe
      mdTokenLoop fuel state' lastSafe' tokenEnd rest'

/-- The main loop of `find_safe_end` (streaming_buffer.rs lines 136-192),
with fuel (the position strictly increases every iteration, so
`buffer.length + 1` always suffices). -/
def fseLoop (buffer : List Char) : Nat → Nat → MdState → Nat → Nat
  | 0, _, _, lastSafe => lastSafe
  | fuel + 1, pos, state, lastSafe =>
    if pos < buffer.length then
      let atLineStart := pos = 0 || buffer.get? (pos - 1) = some '\n'
      let lineStartResult :=
        if atLineStart then processLineStart buffer pos state else (none, state)
      match lineStartResult with
      | (some newPos, state') =>
        let lastSafe' := if isClean state' then newPos else lastSafe
        fseLoop buffer fuel newPos state' lastSafe'
      | (none, state') =>
        if state'.inCodeBlock then
          let newPos :=
            match (buffer.drop pos).findIdx? (· = '\n') with
            | some i => pos + i + 1
            | none => buffer.length
          fseLoop buffer fuel newPos state' lastSafe
        else
          let lineEnd :=
            match (buffer.drop pos).findIdx? (· = '\n') with
            | some i => pos + i + 1
            | none => buffer.length
          let lineContent := (buffer.drop pos).take (lineEnd - pos)
          let (state2, lastSafe2) :=
            mdTokenLoop (lineContent.length + 1) state' lastSafe pos lineContent
          let (state3, lastSafe3) :=
            if lineEnd ≤ buffer.length && pos < lineEnd &&
                buffer.get? (lineEnd - 1) = some '\n' then
              let s := { state2 with pendingHeading := false }
              (s, if isClean s then lineEnd else lastSafe2)
            else (state2, lastSafe2)
          fseLoop buffer fuel lineEnd state3 lastSafe3
    else lastSafe

/-- `MarkdownBuffer::find_safe_end` (streaming_buffer.rs lines 136-192). -/
def findSafeEnd (buffer : List Char) : Nat :=
  fseLoop buffer (buffer.length + 1) 0 {} 0

/-- `MarkdownBuffer::push(chunk)` (streaming_buffer.rs lines 110-125): append
the chunk, split at `find_safe_end`; returns the rendered output (if any) and
the new buffer contents. -/
def mdPush (buffer chunk : List Char) : Option (List Char) × List Char :=
  let buf := buffer ++ chunk
  let safeEnd := findSafeEnd buf
  if 0 < safeEnd then (some (buf.take safeEnd), buf.drop safeEnd)
  else (none, buf)

/-- Feed a sequence of chunks through `MarkdownBuffer::push`, collecting the
outputs, and finish with `flush()` (which returns the whole remaining
buffer). -/
def runMarkdown : List Char → List (List Char) → List (List Char) × List Char
  | buffer, [] => ([], buffer)
  | buffer, chunk :: rest =>
    let (out, buffer') := mdPush buffer chunk
    let (outs, flushed) := runMarkdown buffer' rest
    (match out with
     | some o => o :: outs
     | none => outs, flushed)

/-! ## inference_emulated_tools.rs: the streaming emulator parser

The parser works on Rust `String`s with `char`-based hold-back counting, so
it is modelled over `List Char`. -/

/-- Rust `str::find` on character lists. -/
def findSubstrC (pat l : List Char) : Option Nat := findSub pat l

/-- Rust `str::split_once(pat)` on character lists. -/
def splitOnceStrC (pat : List Char) (l : List Char) : Option (List Char × List Char) :=
  (findSubstrC pat l).map (fun i => (l.take i, l.drop (i + pat.length)))

/-- Rust `str::split_once(c)` for a single character. -/
def splitOnceChar (c : Char) (l : List Char) : Option (List Char × List Char) :=
  (l.findIdx? (· = c)).map (fun i => (l.take i, l.drop (i + 1)))

/-- Rust `str::trim_end_matches(pat)`: repeatedly remove a trailing match. -/
def trimEndMatches (pat : List Char) : Nat → List Char → List Char
  | 0, l => l
  | fuel + 1, l =>
    if !pat.isEmpty && pat.isSuffixOf l then
      trimEndMatches pat fuel (l.take (l.length - pat.length))
    else l

/-- The fence tag `` ```execute `` of the code-mode emulator. -/
def execFence : List Char := btick :: btick :: btick :: ("execute").data

/-- `EmulatorAction` (inference_emulated_tools.rs lines 140-144). -/
inductive EmuAction where
  | text (s : List Char)
  | shellCommand (s : List Char)
  | executeCode (s : List Char)
  deriving DecidableEq

/-- `ParserState` (inference_emulated_tools.rs lines 146-150). -/
inductive EmuState where
  | normal
  | inCommand
  | inExecuteBlock
  deriving DecidableEq

/-- `StreamingEmulatorParser` (inference_emulated_tools.rs lines 152-156). -/
structure EmuParser where
  buffer : List Char
  state : EmuState
  codeModeEnabled : Bool
  deriving DecidableEq

/-- The `loop` of `StreamingEmulatorParser::process_chunk`
(inference_emulated_tools.rs lines 171-260), with fuel: every non-breaking
iteration either consumes buffer characters or moves from `Normal` to
`InCommand`, so `2 * buffer.length + 2` fuel always suffices.  `chunkLen` is
the length of the chunk just appended (used by the first-chunk `$` check,
where `buffer.len() == chunk.len()` holds exactly when the buffer was empty
before the append). -/
def emLoop (codeMode : Bool) (chunkLen : Nat) :
    Nat → EmuState → List Char → List EmuAction → List EmuAction × EmuState × List Char
  | 0, state, buffer, acc => (acc, state, buffer)
  | fuel + 1, state, buffer, acc =>
    match state with
    | .inCommand =>
      match splitOnceChar '\n' buffer with
      | some (commandLine, rest) =>
        let acc' :=
          match commandLine with
          | '$' :: c =>
            let command := rustTrimChars c
            if command.isEmpty then acc else acc ++ [.shellCommand command]
          | _ => acc
        emLoop codeMode chunkLen fuel .normal rest acc'
      | none => (acc, state, buffer)
    | .inExecuteBlock =>
      match findSubstrC ('\n' :: btick :: btick :: [btick]) buffer with
      | some endIdx =>
        let code := buffer.take endIdx
        let rest0 := buffer.drop (endIdx + 4)
        let rest := match rest0 with
          | '\n' :: r => r
          | r => r
        let acc' := if (rustTrimChars code).isEmpty then acc else acc ++ [.executeCode code]
        emLoop codeMode chunkLen fuel .normal rest acc'
      | none => (acc, state, buffer)
    | .normal =>
      match if codeMode then splitOnceStrC (execFence ++ ['\n']) buffer else none with
      | some (before, after) =>
        let acc' := if (rustTrimChars before).isEmpty then acc else acc ++ [.text before]
        emLoop codeMode chunkLen fuel .inExecuteBlock after acc'
      | none =>
        if codeMode && execFence.isSuffixOf buffer then
          let before := trimEndMatches execFence (buffer.length + 1) buffer
          let acc' := if (rustTrimChars before).isEmpty then acc else acc ++ [.text before]
          emLoop codeMode chunkLen fuel .inExecuteBlock [] acc'
        else
          match splitOnceStrC ['\n', '$'] buffer with
          | some (beforeDollar, fromDollar) =>
            let text := beforeDollar ++ ['\n']
            let acc' := if (rustTrimChars text).isEmpty then acc else acc ++ [.text text]
            emLoop codeMode chunkLen fuel .inCommand ('$' :: fromDollar) acc'
          | none =>
            if buffer.head? = some '$' && buffer.length = chunkLen then
              emLoop codeMode chunkLen fuel .inCommand buffer acc
            else
              let holdBack := if codeMode then 12 else 2
              if holdBack < buffer.length && buffer.getLast? ≠ some '\n' then
                let emitCount := buffer.length - holdBack
                let emitText := buffer.take emitCount
                let keepText := buffer.drop emitCount
                let acc' := if emitText.isEmpty then acc else acc ++ [.text emitText]
                (acc', .normal, keepText)
              else (acc, .normal, buffer)

/-- `StreamingEmulatorParser::process_chunk(chunk)` (inference_emulated_tools.rs
lines 167-263). -/
def processChunk (p : EmuParser) (chunk : List Char) : List EmuAction × EmuParser :=
  let buffer := p.buffer ++ chunk
  let (acc, state', buffer') :=
    emLoop p.codeModeEnabled chunk.length (2 * buffer.length + 2) p.state buffer []
  (acc, { p with state := state', buffer := buffer' })

/-- `StreamingEmulatorParser::flush` (inference_emulated_tools.rs lines
265-296). -/
def emFlush (p : EmuParser) : List EmuAction × EmuParser :=
  if p.buffer.isEmpty then ([], p)
  else
    let results :=
      match p.state with
      | .inCommand =>
        let commandLine := rustTrimChars p.buffer
        match commandLine with
        | '$' :: c =>
          let command := rustTrimChars c
          if command.isEmpty then [] else [EmuAction.shellCommand command]
        | _ => if commandLine.isEmpty then [] else [EmuAction.text p.buffer]
      | .inExecuteBlock =>
        let code := rustTrimChars p.buffer
        if code.isEmpty then [] else [EmuAction.executeCode code]
      | .normal => [EmuAction.text p.buffer]
    (results, { p with buffer := [], state := .normal })

/-- A fresh parser (`StreamingEmulatorParser::new`). -/
def emNew (codeMode : Bool) : EmuParser := { buffer := [], state := .normal, codeModeEnabled := codeMode }

/-- Feed chunks through `process_chunk` and finish with `flush`, collecting
all actions in order (the shape of the repository's own parser tests). -/
def emRunLoop : EmuParser → List (List Char) → List EmuAction
  | p, [] => (emFlush p).1
  | p, chunk :: rest =>
    let (acts, p') := processChunk p chunk
    acts ++ emRunLoop p' rest

/-- Run the parser over a chunking of an input. -/
def emRun (codeMode : Bool) (chunks : List (List Char)) : List EmuAction :=
  emRunLoop (emNew codeMode) chunks

/-- The character-at-a-time chunking of an input. -/
def charChunks (l : List Char) : List (List Char) := l.map (fun c => [c])

/-- Merge adjacent text actions (chunking decides only how emitted text is
sliced into messages, so action sequences are compared after coalescing). -/
def coalesce : List EmuAction → List EmuAction
  | [] => []
  | .text a :: rest =>
    match coalesce rest with
    | .text b :: rest' => .text (a ++ b) :: rest'
    | r => .text a :: r
  | x :: rest => x :: coalesce rest

/-- Concatenation of the text payloads of a list of actions. -/
def actionTexts : List EmuAction → List Char
  | [] => []
  | .text s :: rest => s ++ actionTexts rest
  | _ :: rest => actionTexts rest

/-- Does a list of actions consist only of text actions? -/
def allText (as : List EmuAction) : Bool :=
  as.all (fun a => match a with | .text _ => true | _ => false)

/-! ## tool_parsing.rs: XML tool-call extraction -/

/-- Rust `str::split_once(pat)` on byte strings. -/
def splitOnceB (pat l : ByteStr) : Option (ByteStr × ByteStr) :=
  (findSubstr pat l).map (fun i => (l.take i, l.drop (i + pat.length)))

/-- The parameter loop of `parse_xml_function_format` (tool_parsing.rs lines
254-270), with fuel (each iteration consumes at least the `<parameter=`
pattern, so `rest.length + 1` suffices). -/
def xmlParamLoop : Nat → ByteStr → List (ByteStr × JValue) → List (ByteStr × JValue)
  | 0, _, args => args
  | fuel + 1, rest, args =>
    match splitOnceB (ascii "<parameter=") rest with
    | none => args
    | some (_, afterParamEq) =>
      match splitOnceB (ascii ">") afterParamEq with
      | none => args
      | some (paramName0, afterNameClose) =>
        let paramName := rustTrim paramName0
        let (value0, afterValue) :=
          (splitOnceB (ascii "</parameter>") afterNameClose).getD (afterNameClose, [])
        let value := rustTrim value0
        let jsonValue := (jsonParse value).getD (.str value)
        xmlParamLoop fuel afterValue (insertKV args paramName jsonValue)

/-- `parse_xml_function_format(block)` (tool_parsing.rs lines 246-273). -/
def parseXmlFunctionFormat (block : ByteStr) : Option (ByteStr × List (ByteStr × JValue)) :=
  match splitOnceB (ascii "<function=") block with
  | none => none
  | some (_, afterFuncEq) =>
    match splitOnceB (ascii ">") afterFuncEq with
    | none => none
    | some (funcName0, funcBody) =>
      some (rustTrim funcName0, xmlParamLoop (funcBody.length + 1) funcBody [])

/-- The key/value loop of `parse_xml_arg_key_value_format` (tool_parsing.rs
lines 291-310), with fuel. -/
def xmlKVLoop : Nat → ByteStr → List (ByteStr × JValue) → List (ByteStr × JValue)
  | 0, _, args => args
  | fuel + 1, rest, args =>
    match splitOnceB (ascii "<arg_key>") rest with
    | none => args
    | some (_, afterKeyOpen) =>
      match splitOnceB (ascii "</arg_key>") afterKeyOpen with
      | none => args
      | some (key0, afterKeyClose) =>
        let key := rustTrim key0
        match splitOnceB (ascii "<arg_value>") afterKeyClose with
        | none => args
        | some (_, afterValOpen) =>
          let (value0, afterValClose) :=
            (splitOnceB (ascii "</arg_value>") afterValOpen).getD (afterValOpen, [])
          let value := rustTrim value0
          let jsonValue := (jsonParse value).getD (.str value)
          xmlKVLoop fuel afterValClose (insertKV args key jsonValue)

/-- `parse_xml_arg_key_value_format(block)` (tool_parsing.rs lines 277-313). -/
def parseXmlArgKeyValueFormat (block : ByteStr) :
    Option (ByteStr × List (ByteStr × JValue)) :=
  let funcNameEnd := (findSubstr (ascii "<arg_key>") block).getD block.length
  let funcName := rustTrim (block.take funcNameEnd)
  if funcName.isEmpty then none
  else some (funcName, xmlKVLoop (block.length + 1) (block.drop funcNameEnd) [])

/-- `parse_single_xml_tool_call(block)` (tool_parsing.rs lines 237-244). -/
def parseSingleXmlToolCall (block : ByteStr) : Option (ByteStr × List (ByteStr × JValue)) :=
  match parseXmlFunctionFormat block with
  | some result => some result
  | none => parseXmlArgKeyValueFormat block

/-- The block loop of `split_content_and_xml_tool_calls` (tool_parsing.rs
lines 213-228), with fuel (each iteration past the first consumes a
`</tool_call>` or `<tool_call>` occurrence). -/
def xmlBlocksLoop : Nat → ByteStr → List (ByteStr × List (ByteStr × JValue)) →
    List (ByteStr × List (ByteStr × JValue))
  | 0, _, acc => acc
  | fuel + 1, remaining, acc =>
    let (block, afterClose) := (splitOnceB (ascii "</tool_call>") remaining).getD (remaining, [])
    let acc' :=
      match parseSingleXmlToolCall block with
      | some toolCall => acc ++ [toolCall]
      | none => acc
    match splitOnceB (ascii "<tool_call>") afterClose with
    | some (_, nextRemaining) => xmlBlocksLoop fuel nextRemaining acc'
    | none => acc'

/-- `split_content_and_xml_tool_calls(text)` (tool_parsing.rs lines 204-235). -/
def splitContentAndXmlToolCalls (text : ByteStr) :
    Option (ByteStr × List (ByteStr × List (ByteStr × JValue))) :=
  match splitOnceB (ascii "<tool_call>") text with
  | none => none
  | some (content0, firstBlockAndRest) =>
    let content := rustTrimEnd content0
    let toolCalls := xmlBlocksLoop (text.length + 1) firstBlockAndRest []
    if toolCalls.isEmpty then none else some (content, toolCalls)

/-- `extract_xml_tool_call_messages` (tool_parsing.rs lines 315-337): one
message per call, fresh tool ids, empty argument maps become `None`. -/
def extractXmlToolCallMessages (toolCalls : List (ByteStr × List (ByteStr × JValue)))
    (msgId : ByteStr) : List ToolReqMsg :=
  toolCalls.map fun tc =>
    { name := tc.1
      arguments := if tc.2.isEmpty then none else some tc.2
      toolId := .fresh
      msgId := msgId }

/-! ## Stream emission models (C3)

The channel traffic of one generation, assuming the receiver stays alive (no
send ever fails) and abstracting prompt assembly and context validation,
which emit nothing.  Items carry the payloads the code sends. -/

/-- One item sent on the native path's channel. -/
inductive NativeItem where
  | text (s : ByteStr)
  | toolReq (m : ToolReqMsg)
  | usage (promptTokens outputTokens : Nat)

/-- The stream-up-to cutoff computed per token piece by
`generate_with_native_tools` (inference_native_tools.rs lines 119-129). -/
def streamUpTo (generated : ByteStr) : Nat :=
  let hasXml := (splitContentAndXmlToolCalls generated).isSome
  let (content, toolCallsJson) := splitContentAndToolCalls generated
  if toolCallsJson.isSome then content.length
  else if hasXml then
    ((splitContentAndXmlToolCalls generated).map (fun p => p.1.length)).getD 0
  else safeStreamEnd generated

/-- The per-piece callback loop of `generate_with_native_tools`
(inference_native_tools.rs lines 110-153): append the piece, emit the newly
safe slice, stop when the text ends with one of the template's additional
stop strings.  Returns the items sent, the final generated text and the final
streamed length. -/
def nativeLoop (stops : List ByteStr) :
    List ByteStr → ByteStr → Nat → List NativeItem × ByteStr × Nat
  | [], generated, streamed => ([], generated, streamed)
  | piece :: rest, generated, streamed =>
    let generated' := generated ++ piece
    let upTo := streamUpTo generated'
    let (items, streamed') :=
      if streamed < upTo then
        let newText := slice generated' streamed upTo
        ((if newText.isEmpty then [] else [NativeItem.text newText]), upTo)
      else ([], streamed)
    if stops.any (fun s => s.isSuffixOf generated') then (items, generated', streamed')
    else
      let (items2, generated2, streamed2) := nativeLoop stops rest generated' streamed'
      (items ++ items2, generated2, streamed2)

/-- The full channel traffic of `generate_with_native_tools`
(inference_native_tools.rs lines 110-196): streamed text, remaining content,
tool-request messages (XML split first, else JSON split), the full-text
fallback when nothing else was found, and the final usage record. -/
def nativeStreamEvents (stops : List ByteStr) (pieces : List ByteStr) (msgId : ByteStr)
    (promptTok outTok : Nat) : List NativeItem :=
  let (items, generated, streamed) := nativeLoop stops pieces [] 0
  let (content, toolCallMsgs) :=
    match splitContentAndXmlToolCalls generated with
    | some (xmlContent, xmlCalls) => (xmlContent, extractXmlToolCallMessages xmlCalls msgId)
    | none =>
      let (jsonContent, toolCallsJson) := splitContentAndToolCalls generated
      (jsonContent, (toolCallsJson.map (fun tc => extractToolCallMessages tc msgId)).getD [])
  let remainingItems :=
    if streamed < content.length then
      let remaining := content.drop streamed
      if remaining.isEmpty then [] else [NativeItem.text remaining]
    else []
  let toolItems := toolCallMsgs.map NativeItem.toolReq
  let fallbackItems :=
    if toolCallMsgs.isEmpty ∧ content.isEmpty ∧ ¬generated.isEmpty then
      [NativeItem.text generated]
    else []
  items ++ remainingItems ++ toolItems ++ fallbackItems ++ [.usage promptTok outTok]

/-- One item sent on the emulator path's channel (`send_emulator_action`,
inference_emulated_tools.rs lines 299-356): text, a `developer__shell`
request with a `command` argument, a `code_execution__execute` request with a
wrapped `code` argument, or the usage record. -/
inductive EmuItem where
  | text (s : List Char)
  | shellTool (command : List Char)
  | codeTool (code : List Char)
  | usage (promptTokens outputTokens : Nat)

/-- The code wrapping of `send_emulator_action` for `ExecuteCode`
(inference_emulated_tools.rs lines 333-337). -/
def wrapExecuteCode (code : List Char) : List Char :=
  if (findSubstrC ("async function run()").data code).isSome then code
  else ("async function run() \x7b\n").data ++ code ++ ("\n\x7d").data

/-- The item sent for one emulator action. -/
def emuActionItem : EmuAction → EmuItem
  | .text s => .text s
  | .shellCommand c => .shellTool c
  | .executeCode s => .codeTool (wrapExecuteCode s)

/-- Whether `send_emulator_action` reports the action as a tool call. -/
def actionIsTool : EmuAction → Bool
  | .text _ => false
  | .shellCommand _ => true
  | .executeCode _ => true

/-- The per-piece callback loop of `generate_with_emulated_tools`
(inference_emulated_tools.rs lines 397-424): send every action of the piece,
then stop when one of them was a tool call.  Returns the items sent, the
final parser and whether the loop stopped because of a tool call. -/
def emuStreamLoop : EmuParser → List (List Char) → List EmuItem × EmuParser × Bool
  | p, [] => ([], p, false)
  | p, piece :: rest =>
    let (acts, p') := processChunk p piece
    let items := acts.map emuActionItem
    if acts.any actionIsTool then (items, p', true)
    else
      let (items2, p2, stopped) := emuStreamLoop p' rest
      (items ++ items2, p2, stopped)

/-- The full channel traffic of `generate_with_emulated_tools`
(inference_emulated_tools.rs lines 358-444): the loop's items, the flush's
items, then the usage record. -/
def emuStreamEvents (codeMode : Bool) (pieces : List (List Char))
    (promptTok outTok : Nat) : List EmuItem :=
  let (items, pFinal, _) := emuStreamLoop (emNew codeMode) pieces
  items ++ ((emFlush pFinal).1.map emuActionItem) ++ [.usage promptTok outTok]

/-- No text item occurs after a tool-request item. -/
def nativeNoTextAfterTool : List NativeItem → Bool
  | [] => true
  | .toolReq _ :: rest => rest.all fun item =>
      match item with
      | .text _ => false
      | _ => true
  | _ :: rest => nativeNoTextAfterTool rest

/-- No text item occurs after a tool-request item (emulator items). -/
def emuNoTextAfterTool : List EmuItem → Bool
  | [] => true
  | .shellTool _ :: rest => rest.all fun item =>
      match item with
      | .text _ => false
      | _ => true
  | .codeTool _ :: rest => rest.all fun item =>
      match item with
      | .text _ => false
      | _ => true
  | _ :: rest => emuNoTextAfterTool rest

/-- Whether a native item is the usage record. -/
def nativeIsUsage : NativeItem → Bool
  | .usage _ _ => true
  | _ => false

/-- Whether an emulator item is the usage record. -/
def emuIsUsage : EmuItem → Bool
  | .usage _ _ => true
  | _ => false

/-- Projection of a native item to a tool-request message. -/
def toolReqOf : NativeItem → Option ToolReqMsg
  | .toolReq m => some m
  | _ => none

/-- Does a list of native items consist only of text items? -/
def nativeAllText (items : List NativeItem) : Bool :=
  items.all (fun i => match i with | .text _ => true | _ => false)

/-- The tool-request messages extracted at the end of
`generate_with_native_tools`, in extraction order (XML split first, else the
JSON `tool_calls` entries). -/
def nativeExtractedMsgs (stops : List ByteStr) (pieces : List ByteStr) (msgId : ByteStr) :
    List ToolReqMsg :=
  let generated := (nativeLoop stops pieces [] 0).2.1
  match splitContentAndXmlToolCalls generated with
  | some (_, xmlCalls) => extractXmlToolCallMessages xmlCalls msgId
  | none =>
    (((splitContentAndToolCalls generated).2).map (fun tc => extractToolCallMessages tc msgId)).getD []

/-! ## Claim-side auxiliary definitions -/

/-- The context cap as claim C4 words it: `context_limit` if non-zero else
`n_ctx_train`, further capped by the memory estimate when present. -/
def capClaim (contextLimit nCtxTrain : Nat) (memoryMaxCtx : Option Nat) : Nat :=
  let base := if contextLimit ≠ 0 then contextLimit else nCtxTrain
  match memoryMaxCtx with
  | some m => min base m
  | none => base

/-- The tool id chosen for one `tool_calls` entry: the entry's `id` string if
present, else a fresh UUID. -/
def idOf (tc : JValue) : IdSpec :=
  match (jget tc (ascii "id")).bind jAsStr with
  | some s => .given s
  | none => .fresh

/-- Whether a `validate_and_compute_context` result is the
`ContextLengthExceeded` error. -/
def isCtxError : Except (List Char) (Nat × Nat) → Bool
  | .error _ => true
  | .ok _ => false

/-- Claim C5's notion of "the prompt provably cannot fit": it exceeds the
user-set `context_size` or the device-memory estimate. -/
def cannotFit (p : Nat) (userCtx memoryMaxCtx : Option Nat) : Bool :=
  (match userCtx with
   | some c => decide (c < p)
   | none => false) ||
  (match memoryMaxCtx with
   | some m => decide (m < p)
   | none => false)

/-- The prompt exceeds the device-memory estimate (the condition the code
actually checks pre-flight). -/
def memExceeded (p : Nat) (memoryMaxCtx : Option Nat) : Bool :=
  match memoryMaxCtx with
  | some m => decide (m < p)
  | none => false

/-- The ASCII byte of the opening brace. -/
def braceOpen : Nat := 123

/-- The ASCII byte of the closing brace. -/
def braceClose : Nat := 125

/-!
# Theorems

Helper lemmas first, then one theorem per claim (with its counterexample and
witness where required).
-/

/-! ## C6: MarkdownBuffer byte conservation -/

theorem runMarkdown_conservation (chunks : List (List Char)) (buffer : List Char) :
    ((runMarkdown buffer chunks).1).flatten ++ (runMarkdown buffer chunks).2 =
      buffer ++ chunks.flatten := by
  induction chunks generalizing buffer with
  | nil => simp [runMarkdown]
  | cons chunk rest ih =>
    simp only [runMarkdown, List.flatten_cons]
    by_cases h : 0 < findSafeEnd (buffer ++ chunk) <;>
      simp only [mdPush, h, if_pos, if_neg, ite_true, ite_false, not_false_iff] <;>
      simp only [List.flatten_cons, List.append_assoc, ih]
    simp [← List.append_assoc, List.take_append_drop]

/-- C6: for every sequence of input chunks, concatenating all `Some` outputs
of `MarkdownBuffer::push` (in order) followed by the result of `flush()`
equals the concatenation of all input chunks — no byte is lost and none is
duplicated. -/
theorem C6_markdown_byte_conservation (chunks : List (List Char)) :
    ((runMarkdown [] chunks).1).flatten ++ (runMarkdown [] chunks).2 = chunks.flatten := by
  simpa using runMarkdown_conservation chunks []

/-! ## C9: build_sampler structure -/

/-- C9: `build_sampler` builds exactly the chain the specification describes:
a penalties sampler (parameterised by `repeat_last_n`, `repeat_penalty`,
`frequency_penalty`, `presence_penalty`) is prepended iff
`repeat_penalty != 1.0` or `frequency_penalty != 0` or
`presence_penalty != 0`; then exactly one of Greedy, the Temperature
sub-chain `top_k -> top_p(1) -> min_p(1) -> temperature -> distribution(seed)`,
or `MirostatV2{tau, eta, seed}` is appended; a single resulting sub-sampler
is returned unwrapped, otherwise the samplers are wrapped in a chain. -/
theorem C9_build_sampler_matches_spec (settings : ModelSettings) :
    buildSampler settings = specSamplerChain settings := by
  unfold buildSampler specSamplerChain
  simp only [ne_eq]
  cases hs : settings.sampling <;> split_ifs <;> simp [hs]

/-! ## C4: effective_context_size bounds -/

/-- C4 counterexample: with a user-set `context_size` of 10000 the cap is
taken verbatim, so the result 5512 exceeds `min(context_limit or
n_ctx_train, memory_max) = 100`, refuting the claimed unconditional upper
bound. -/
theorem C4_counterexample :
    ¬ (effectiveContextSize 5000 { contextSize := some 10000 } 4096 4096 (some 100) ≤
        capClaim 4096 4096 (some 100)) := by decide

theorem contextCap_of_no_override (settings : ModelSettings)
    (h : settings.contextSize = none) (contextLimit nCtxTrain : Nat)
    (memoryMaxCtx : Option Nat) :
    contextCap settings contextLimit nCtxTrain memoryMaxCtx =
      capClaim contextLimit nCtxTrain memoryMaxCtx := by
  unfold contextCap capClaim
  rw [h]
  cases memoryMaxCtx <;> simp <;> split_ifs <;> omega

/-- C4 (amended): `effective_context_size` always equals
`min(prompt_tokens + 512, cap)` where the cap is `settings.context_size`
verbatim when set; when `context_size` is not set, the cap equals
`context_limit` (or `n_ctx_train` when that is zero) clamped by the memory
estimate, so the claimed bounds hold: the result is at most that cap and at
least `min(prompt_tokens + 512, cap)`. -/
theorem C4_amended (promptTokenCount contextLimit nCtxTrain : Nat)
    (memoryMaxCtx : Option Nat) (settings : ModelSettings)
    (h : settings.contextSize = none) :
    effectiveContextSize promptTokenCount settings contextLimit nCtxTrain memoryMaxCtx =
      min (promptTokenCount + 512)
        (contextCap settings contextLimit nCtxTrain memoryMaxCtx) ∧
    contextCap settings contextLimit nCtxTrain memoryMaxCtx =
      capClaim contextLimit nCtxTrain memoryMaxCtx ∧
    effectiveContextSize promptTokenCount settings contextLimit nCtxTrain memoryMaxCtx ≤
      capClaim contextLimit nCtxTrain memoryMaxCtx ∧
    min (promptTokenCount + 512) (capClaim contextLimit nCtxTrain memoryMaxCtx) ≤
      effectiveContextSize promptTokenCount settings contextLimit nCtxTrain memoryMaxCtx := by
  have hcap := contextCap_of_no_override settings h contextLimit nCtxTrain memoryMaxCtx
  refine ⟨rfl, hcap, ?_, ?_⟩
  · unfold effectiveContextSize
    rw [hcap]
    exact min_le_right _ _
  · unfold effectiveContextSize
    rw [hcap]

/-- C4 witness: the amended claim at concrete inputs (spec scenario G:
`effective_context_size(5000, default, 4096, 4096, none) = 4096`). -/
theorem C4_witness :
    effectiveContextSize 5000 {} 4096 4096 none =
      min (5000 + 512) (contextCap {} 4096 4096 none) ∧
    contextCap {} 4096 4096 none = capClaim 4096 4096 none ∧
    effectiveContextSize 5000 {} 4096 4096 none ≤ capClaim 4096 4096 none ∧
    min (5000 + 512) (capClaim 4096 4096 none) ≤ effectiveContextSize 5000 {} 4096 4096 none :=
  C4_amended 5000 4096 4096 none {} rfl

/-! ## C5: pre-flight ContextLengthExceeded -/

/-- C5 counterexample: with a user-set `context_size` of 100, a prompt of
5000 tokens and no memory estimate, the prompt provably cannot fit against
the user-set context size, yet `validate_and_compute_context` succeeds — the
pre-flight check only tests the memory estimate. -/
theorem C5_counterexample :
    validateAndComputeContext 5000 100 4096 none { contextSize := some 100 } =
      .ok (5000, 100) ∧
    ¬ (isCtxError (validateAndComputeContext 5000 100 4096 none
          { contextSize := some 100 }) =
        cannotFit 5000 (some 100) none) := by
  exact ⟨rfl, by decide⟩

/-- C5 (amended): `validate_and_compute_context` fails with
`ContextLengthExceeded` exactly when a memory estimate is present and the
prompt exceeds it (the user-set `context_size` is not checked pre-flight);
no allocation is modelled or attempted; the error message is the literal
format string naming both the prompt size and the exceeded memory limit. -/
theorem C5_amended (p contextLimit nCtxTrain : Nat) (M : Option Nat)
    (s : ModelSettings) :
    (isCtxError (validateAndComputeContext p contextLimit nCtxTrain M s) =
      memExceeded p M) ∧
    (∀ m, M = some m → m < p →
      validateAndComputeContext p contextLimit nCtxTrain M s =
        .error (ctxErrorMessage p m)) ∧
    (∀ m, M = some m → ¬ m < p →
      validateAndComputeContext p contextLimit nCtxTrain M s =
        .ok (p, effectiveContextSize p s contextLimit nCtxTrain M)) ∧
    (M = none →
      validateAndComputeContext p contextLimit nCtxTrain M s =
        .ok (p, effectiveContextSize p s contextLimit nCtxTrain M)) ∧
    (∀ m, (Nat.repr p).data <:+: ctxErrorMessage p m ∧
      (Nat.repr m).data <:+: ctxErrorMessage p m) := by
  refine ⟨?_, ?_, ?_, ?_, ?_⟩
  · unfold validateAndComputeContext memExceeded
    cases M with
    | none => simp [isCtxError]
    | some m =>
      by_cases hm : m < p <;> simp [isCtxError, hm]
  · intro m hM hm
    subst hM
    unfold validateAndComputeContext
    simp [hm]
  · intro m hM hm
    subst hM
    unfold validateAndComputeContext
    simp [hm]
  · intro hM
    subst hM
    rfl
  · intro m
    refine ⟨⟨"Prompt (".data,
      " tokens) exceeds estimated memory capacity (".data ++ (Nat.repr m).data ++
        " tokens). Try a smaller model or reduce conversation length.".data, ?_⟩,
      ⟨"Prompt (".data ++ (Nat.repr p).data ++
        " tokens) exceeds estimated memory capacity (".data,
      " tokens). Try a smaller model or reduce conversation length.".data, ?_⟩⟩ <;>
      simp [ctxErrorMessage]

/-- C5 witness: the amended claim at concrete inputs (spec scenario G:
`prompt_tokens = 5000`, `memory_max = 3000` fails pre-flight). -/
theorem C5_witness :
    validateAndComputeContext 5000 4096 4096 (some 3000) {} =
      .error (ctxErrorMessage 5000 3000) :=
  (C5_amended 5000 4096 4096 (some 3000) {}).2.1 3000 rfl (by omega)

/-! ## C10: extract_tool_call_messages argument handling -/

/-- C10 counterexample: an OpenAI-shape entry with a non-empty name and no
`arguments` member produces a message whose arguments are `Some`(empty map)
(the string defaults to `"{}"`, which parses), not `None` as claimed. -/
theorem C10_counterexample :
    (extractToolCallMessages
        (ascii "\x7b\"tool_calls\":[\x7b\"function\":\x7b\"name\":\"t\"\x7d,\"id\":\"i\"\x7d]\x7d")
        (ascii "m")).map (fun m => (m.name, m.arguments)) =
      [(ascii "t", some ([] : List (ByteStr × JValue)))] ∧
    some ([] : List (ByteStr × JValue)) ≠ none := by
  exact ⟨rfl, by simp⟩

/-- C10 (amended): an OpenAI-shape entry whose `arguments` member is a string
that is not a valid JSON object, or is absent, still produces exactly one
tool-request message with the parsed name, provided the name is non-empty;
its arguments are the result of parsing the arguments string (which defaults
to `"{}"` when absent, giving `Some`(empty map), and gives `None` on a parse
failure); the entry is neither skipped nor does it fail the extraction. -/
theorem C10_amended (msgId json : ByteStr) (parsed tc func : JValue) (name : ByteStr)
    (pre post : List JValue)
    (hparse : jsonParse json = some parsed)
    (harr : (jget parsed toolCallsKey).bind jAsArr = some (pre ++ tc :: post))
    (hfunc : jget tc (ascii "function") = some func)
    (hname : (jget func (ascii "name")).bind jAsStr = some name)
    (hne : name ≠ []) :
    entryMsg msgId tc = some
      { name := name
        arguments := jsonParseObj
          (((jget func (ascii "arguments")).bind jAsStr).getD (ascii "\x7b\x7d"))
        toolId := idOf tc
        msgId := msgId } ∧
    extractToolCallMessages json msgId =
      pre.filterMap (entryMsg msgId) ++
        { name := name
          arguments := jsonParseObj
            (((jget func (ascii "arguments")).bind jAsStr).getD (ascii "\x7b\x7d"))
          toolId := idOf tc
          msgId := msgId } :: post.filterMap (entryMsg msgId) ∧
    jsonParseObj (ascii "\x7b\x7d") = some [] := by
  have hempty : name.isEmpty = false := by
    cases name with
    | nil => exact absurd rfl hne
    | cons a l => rfl
  have hmsg : entryMsg msgId tc = some
      { name := name
        arguments := jsonParseObj
          (((jget func (ascii "arguments")).bind jAsStr).getD (ascii "\x7b\x7d"))
        toolId := idOf tc
        msgId := msgId } := by
    unfold entryMsg idOf
    rw [hfunc]
    simp only [hname, Option.getD_some, hempty, Bool.false_eq_true, if_false]
  refine ⟨hmsg, ?_, rfl⟩
  unfold extractToolCallMessages
  simp only [hparse, harr, List.filterMap_append, List.filterMap_cons, hmsg]

/-- C10 witness: the amended claim applied to the concrete entry
`{"function":{"name":"t"},"id":"i"}` inside a one-element `tool_calls`
array. -/
theorem C10_witness :
    extractToolCallMessages
        (ascii "\x7b\"tool_calls\":[\x7b\"function\":\x7b\"name\":\"t\"\x7d,\"id\":\"i\"\x7d]\x7d")
        (ascii "m") =
      [{ name := ascii "t"
         arguments := some []
         toolId := .given (ascii "i")
         msgId := ascii "m" }] := by
  have h := (C10_amended (ascii "m")
    (ascii "\x7b\"tool_calls\":[\x7b\"function\":\x7b\"name\":\"t\"\x7d,\"id\":\"i\"\x7d]\x7d")
    (.obj [(ascii "tool_calls",
      .arr [.obj [(ascii "function", .obj [(ascii "name", .str (ascii "t"))]),
        (ascii "id", .str (ascii "i"))]])])
    (.obj [(ascii "function", .obj [(ascii "name", .str (ascii "t"))]),
      (ascii "id", .str (ascii "i"))])
    (.obj [(ascii "name", .str (ascii "t"))])
    (ascii "t") [] [] rfl rfl rfl rfl (by decide)).2.1
  exact h

/-! ## C8: sync_with_featured -/

theorem syncInsertLoop_mem (featured : List RegEntry) :
    ∀ (models : List RegEntry) (c : Bool) (x : RegEntry), x ∈ models →
      x ∈ (syncInsertLoop models c featured).1 := by
  induction featured with
  | nil => intro models c x hx; exact hx
  | cons f rest ih =>
    intro models c x hx
    unfold syncInsertLoop
    split
    · exact ih _ _ x hx
    · exact ih _ _ x (List.mem_append_left _ hx)

theorem syncInsertLoop_featured (featured : List RegEntry) :
    ∀ (models : List RegEntry) (c : Bool), ∀ e ∈ featured,
      ∃ m ∈ (syncInsertLoop models c featured).1, m.id = e.id := by
  induction featured with
  | nil => intro models c e he; cases he
  | cons f rest ih =>
    intro models c e he
    rcases List.mem_cons.mp he with rfl | hrest
    · unfold syncInsertLoop
      split
      · next hp =>
        rcases List.any_eq_true.mp hp with ⟨m, hm, hid⟩
        exact ⟨m, syncInsertLoop_mem rest _ _ m hm, of_decide_eq_true hid⟩
      · exact ⟨e, syncInsertLoop_mem rest _ _ e
          (List.mem_append_right _ (List.mem_singleton.mpr rfl)), rfl⟩
    · unfold syncInsertLoop
      split
      · exact ih _ _ e hrest
      · exact ih _ _ e hrest

theorem syncInsertLoop_flag_true (featured : List RegEntry) :
    ∀ models : List RegEntry, (syncInsertLoop models true featured).2 = true := by
  induction featured with
  | nil => intro models; rfl
  | cons f rest ih =>
    intro models
    unfold syncInsertLoop
    split
    · exact ih _
    · exact ih _

theorem syncInsertLoop_flag_false (featured : List RegEntry) :
    ∀ models : List RegEntry, (syncInsertLoop models false featured).2 = false →
      (syncInsertLoop models false featured).1 = models := by
  induction featured with
  | nil => intro models _; rfl
  | cons f rest ih =>
    intro models h
    unfold syncInsertLoop at h ⊢
    by_cases hp : (models.any fun m => decide (m.id = f.id)) = true
    · rw [if_pos hp] at h ⊢
      exact ih _ h
    · rw [if_neg hp] at h
      have := syncInsertLoop_flag_true rest (models ++ [f])
      rw [h] at this
      cases this

/-- C8 counterexample: syncing an empty registry with one "featured" entry
whose id is not actually featured and whose files are neither present nor
downloading inserts the entry and immediately retains it away: the model
list ends unchanged, yet `save()` is invoked — refuting "save is invoked
exactly when the model list changed". -/
theorem C8_counterexample :
    (syncWithFeatured ⟨fun _ => false, fun _ => false⟩ (.ok ()) []
        [{ id := ("x/y:Z").data
           displayName := []
           repoId := ("x/y").data
           filename := []
           quantization := ("Z").data
           localPath := []
           sourceUrl := []
           settings := {}
           sizeBytes := 0 }]).2 = true ∧
    (syncWithFeatured ⟨fun _ => false, fun _ => false⟩ (.ok ()) []
        [{ id := ("x/y:Z").data
           displayName := []
           repoId := ("x/y").data
           filename := []
           quantization := ("Z").data
           localPath := []
           sourceUrl := []
           settings := {}
           sizeBytes := 0 }]).1 = [] := by
  constructor
  · rfl
  · rfl

/-- C8 (amended): after `sync_with_featured(entries)` every featured entry's
id is present after the insertion phase; an entry is in the final registry
iff it survived insertion and is downloaded, downloading, or featured;
`save()` is invoked exactly when an entry was inserted or the retain step
dropped one (which implies, but is not implied by, a net change of the model
list — an inserted entry can be retained away immediately); and the result
is independent of the save outcome (a save failure is swallowed). -/
theorem C8_amended (env : RegistryEnv) (saveRes : Except (List Char) Unit)
    (models featured : List RegEntry) :
    (∀ e ∈ featured, ∃ m ∈ (syncInsertLoop models false featured).1, m.id = e.id) ∧
    (syncWithFeatured env saveRes models featured).1 =
      ((syncInsertLoop models false featured).1).filter (keepEntry env) ∧
    (∀ m, m ∈ (syncWithFeatured env saveRes models featured).1 ↔
      m ∈ (syncInsertLoop models false featured).1 ∧ keepEntry env m = true) ∧
    ((syncWithFeatured env saveRes models featured).2 = true ↔
      ((syncInsertLoop models false featured).2 = true ∨
        ((syncInsertLoop models false featured).1).filter (keepEntry env) ≠
          (syncInsertLoop models false featured).1)) ∧
    ((syncWithFeatured env saveRes models featured).1 ≠ models →
      (syncWithFeatured env saveRes models featured).2 = true) ∧
    (∀ r₁ r₂ : Except (List Char) Unit,
      syncWithFeatured env r₁ models featured = syncWithFeatured env r₂ models featured) := by
  have hfst : (syncWithFeatured env saveRes models featured).1 =
      ((syncInsertLoop models false featured).1).filter (keepEntry env) := by
    simp only [syncWithFeatured]
    split <;> rfl
  have hlen : (((syncInsertLoop models false featured).1).filter (keepEntry env)).length ≠
        (syncInsertLoop models false featured).1.length ↔
      ((syncInsertLoop models false featured).1).filter (keepEntry env) ≠
        (syncInsertLoop models false featured).1 := by
    constructor
    · intro h heq; exact h (by rw [heq])
    · intro h hl
      exact h ((List.filter_sublist _).eq_of_length hl)
  have hsnd : (syncWithFeatured env saveRes models featured).2 = true ↔
      ((syncInsertLoop models false featured).2 = true ∨
        ((syncInsertLoop models false featured).1).filter (keepEntry env) ≠
          (syncInsertLoop models false featured).1) := by
    simp only [syncWithFeatured]
    split
    · next hc =>
      simp only [Bool.or_eq_true, decide_eq_true_eq] at hc
      simp only [true_iff]
      exact hc.imp id hlen.mp
    · next hc =>
      simp only [Bool.or_eq_true, decide_eq_true_eq, not_or] at hc
      simp only [Bool.false_eq_true, false_iff, not_or]
      exact ⟨hc.1, fun hne => hc.2 (hlen.mpr hne)⟩
  refine ⟨syncInsertLoop_featured featured models false, hfst, ?_, hsnd, ?_, ?_⟩
  · intro m
    rw [hfst, List.mem_filter]
  · intro hne
    rw [hsnd]
    by_cases hflag : (syncInsertLoop models false featured).2 = true
    · exact Or.inl hflag
    · refine Or.inr ?_
      intro heq
      apply hne
      rw [hfst, heq]
      exact syncInsertLoop_flag_false featured models (Bool.not_eq_true _ ▸ hflag)
  · intro r₁ r₂
    unfold syncWithFeatured
    rfl

/-! ## C1: split_content_and_tool_calls on texts ending in a tool-call block -/

theorem fDepth_append (a b : ByteStr) : fDepth (a ++ b) = fDepth a + fDepth b := by
  induction a with
  | nil => simp [fDepth]
  | cons x l ih => simp [fDepth, ih]; ring

theorem fDepth_reverse (l : ByteStr) : fDepth l.reverse = fDepth l := by
  induction l with
  | nil => rfl
  | cons x l ih =>
    simp [fDepth, List.reverse_cons, fDepth_append, ih]
    ring

/-- A backward scan that never reaches depth zero inside `xs` passes through
to `ys` with the accumulated depth. -/
theorem backScan_append_of_noStop (xs : ByteStr) :
    ∀ (ys : ByteStr) (i : Nat) (d : Int),
      (∀ m, m < xs.length → d - fDepth (xs.take (m + 1)) ≠ 0) →
      backScan (xs ++ ys) i d = backScan ys (i - xs.length) (d - fDepth xs) := by
  induction xs with
  | nil => intro ys i d _; simp [fDepth]
  | cons b xs' ih =>
    intro ys i d h
    have hcons : ∀ (m : Nat), fDepth (List.take (m + 1) (b :: xs')) =
        (if b = 123 then (1 : Int) else if b = 125 then -1 else 0) + fDepth (List.take m xs') := by
      intro m
      rw [List.take_succ_cons]
      rfl
    have hfd : fDepth (b :: xs') =
        (if b = 123 then (1 : Int) else if b = 125 then -1 else 0) + fDepth xs' := rfl
    have hsub : i - 1 - xs'.length = i - (b :: xs').length := by
      simp only [List.length_cons]
      omega
    by_cases hb5 : b = 125
    · subst hb5
      have hnext : ∀ m, m < xs'.length → (d + 1) - fDepth (xs'.take (m + 1)) ≠ 0 := by
        intro m hm hc
        refine h (m + 1) (by simp only [List.length_cons]; omega) ?_
        rw [hcons (m + 1)]
        rw [if_neg (by decide), if_pos rfl]
        omega
      show backScan (125 :: (xs' ++ ys)) i d = _
      rw [backScan, if_pos rfl, ih ys (i - 1) (d + 1) hnext, hsub, hfd]
      rw [if_neg (by decide), if_pos rfl]
      congr 1
      ring
    · by_cases hb3 : b = 123
      · subst hb3
        have h0 : d - 1 ≠ 0 := by
          have := h 0 (by simp)
          rw [hcons 0] at this
          rw [if_pos rfl] at this
          simpa [fDepth] using this
        have hnext : ∀ m, m < xs'.length → (d - 1) - fDepth (xs'.take (m + 1)) ≠ 0 := by
          intro m hm hc
          refine h (m + 1) (by simp only [List.length_cons]; omega) ?_
          rw [hcons (m + 1), if_pos rfl]
          omega
        show backScan (123 :: (xs' ++ ys)) i d = _
        rw [backScan, if_neg (by decide), if_pos rfl, if_neg h0,
          ih ys (i - 1) (d - 1) hnext, hsub, hfd, if_pos rfl]
        congr 1
        ring
      · have hnext : ∀ m, m < xs'.length → d - fDepth (xs'.take (m + 1)) ≠ 0 := by
          intro m hm hc
          refine h (m + 1) (by simp only [List.length_cons]; omega) ?_
          rw [hcons (m + 1), if_neg hb3, if_neg hb5]
          omega
        show backScan (b :: (xs' ++ ys)) i d = _
        rw [backScan, if_neg hb5, if_neg hb3, ih ys (i - 1) d hnext, hsub, hfd,
          if_neg hb3, if_neg hb5]
        congr 1
        ring

/-- The backward scan of a text `c ++ j`, where `j` is a balanced brace block
that stays strictly positive in its interior, stops exactly at the opening
brace of `j`. -/
theorem jsonStart_append (c j' : ByteStr)
    (hbal : fDepth (braceOpen :: j') = 0)
    (hint : ∀ k, k < (braceOpen :: j').length → 0 < k →
      0 < fDepth ((braceOpen :: j').take k)) :
    jsonStart (c ++ braceOpen :: j') = some c.length := by
  have hj' : fDepth j' = -1 := by
    have : fDepth (braceOpen :: j') = 1 + fDepth j' := by
      show (if braceOpen = 123 then (1 : Int) else if braceOpen = 125 then -1 else 0) +
        fDepth j' = 1 + fDepth j'
      norm_num [braceOpen]
    rw [this] at hbal
    omega
  unfold jsonStart
  have hrev : (c ++ braceOpen :: j').reverse = j'.reverse ++ (braceOpen :: c.reverse) := by
    simp
  rw [hrev]
  rw [backScan_append_of_noStop j'.reverse (braceOpen :: c.reverse)
      ((c ++ braceOpen :: j').length - 1) 0 ?_]
  · have hlen : (c ++ braceOpen :: j').length - 1 - j'.reverse.length = c.length := by
      simp only [List.length_append, List.length_cons, List.length_reverse]
      omega
    rw [hlen, fDepth_reverse, hj']
    show backScan (braceOpen :: c.reverse) c.length (0 - -1) = some c.length
    rw [backScan]
    norm_num [braceOpen]
  · intro m hm
    rw [List.length_reverse] at hm
    have hdroprev : List.drop (m + 1) j'.reverse =
        (List.take (j'.length - (m + 1)) j').reverse := by
      rw [List.reverse_take]
      congr 1
      omega
    have hdecomp := fDepth_append (j'.reverse.take (m + 1)) (j'.reverse.drop (m + 1))
    rw [List.take_append_drop, hdroprev, fDepth_reverse, fDepth_reverse] at hdecomp
    have hk := hint (j'.length - (m + 1) + 1)
      (by simp only [List.length_cons]; omega) (by omega)
    have htake2 : fDepth ((braceOpen :: j').take (j'.length - (m + 1) + 1)) =
        1 + fDepth (j'.take (j'.length - (m + 1))) := by
      rw [List.take_succ_cons]
      show (if braceOpen = 123 then (1 : Int) else if braceOpen = 125 then -1 else 0) +
        _ = _
      norm_num [braceOpen]
    rw [htake2] at hk
    intro hc
    omega

/-- A brace scan over a balanced, non-negatively nested text marks the whole
text as safe. -/
theorem braceLoop_final (l : ByteStr) :
    ∀ (d : Int) (i : Nat) (s : Option Nat),
      (∀ k, k ≤ l.length → 0 ≤ d + fDepth (l.take k)) → d + fDepth l = 0 →
      (braceLoop l d i s).2 = if l.isEmpty then s else some (i + l.length) := by
  induction l with
  | nil => intro d i s _ _; rfl
  | cons b l' ih =>
    intro d i s hk htot
    have hd0 : 0 ≤ d := by simpa [fDepth] using hk 0 (by simp)
    have hkc : ∀ (k : Nat), fDepth ((b :: l').take (k + 1)) =
        (if b = 123 then (1 : Int) else if b = 125 then -1 else 0) + fDepth (l'.take k) := by
      intro k
      rw [List.take_succ_cons]
      rfl
    have hfd : fDepth (b :: l') =
        (if b = 123 then (1 : Int) else if b = 125 then -1 else 0) + fDepth l' := rfl
    have hlenres : ∀ t : Option Nat, (if l'.isEmpty then t else some (i + 1 + l'.length)) =
        some (i + (b :: l').length) → True := fun _ _ => trivial
    by_cases hb3 : b = 123
    · subst hb3
      have hk' : ∀ k, k ≤ l'.length → 0 ≤ (d + 1) + fDepth (l'.take k) := by
        intro k hkk
        have h1 := hk (k + 1) (by simp only [List.length_cons]; omega)
        rw [hkc k, if_pos rfl] at h1
        omega
      have htot' : (d + 1) + fDepth l' = 0 := by
        rw [hfd, if_pos rfl] at htot
        omega
      have hl' : l' ≠ [] := by
        intro he
        subst he
        simp only [fDepth] at htot'
        omega
      rw [braceLoop, if_pos rfl, ih (d + 1) (i + 1) _ hk' htot']
      rw [if_neg (fun he => hl' (List.isEmpty_iff.mp he)),
        if_neg (by simp)]
      congr 1
      simp only [List.length_cons]
      omega
    · by_cases hb5 : b = 125
      · subst hb5
        have hk' : ∀ k, k ≤ l'.length → 0 ≤ (d - 1) + fDepth (l'.take k) := by
          intro k hkk
          have h1 := hk (k + 1) (by simp only [List.length_cons]; omega)
          rw [hkc k, if_neg (by decide), if_pos rfl] at h1
          omega
        have htot' : (d - 1) + fDepth l' = 0 := by
          rw [hfd, if_neg (by decide), if_pos rfl] at htot
          omega
        rw [braceLoop, if_neg (by decide), if_pos rfl, ih (d - 1) (i + 1) _ hk' htot']
        by_cases he : l' = []
        · subst he
          have hd1 : d - 1 = 0 := by
            simpa [fDepth] using htot'
          rw [if_pos (by rfl), if_pos hd1, if_neg (by simp)]
          rfl
        · rw [if_neg (fun hee => he (List.isEmpty_iff.mp hee)), if_neg (by simp)]
          congr 1
          simp only [List.length_cons]
          omega
      · have hk' : ∀ k, k ≤ l'.length → 0 ≤ d + fDepth (l'.take k) := by
          intro k hkk
          have h1 := hk (k + 1) (by simp only [List.length_cons]; omega)
          rw [hkc k, if_neg hb3, if_neg hb5] at h1
          omega
        have htot' : d + fDepth l' = 0 := by
          rw [hfd, if_neg hb3, if_neg hb5] at htot
          omega
        rw [braceLoop, if_neg hb3, if_neg hb5, ih d (i + 1) _ hk' htot']
        by_cases he : l' = []
        · subst he
          have hd1 : d = 0 := by
            simpa [fDepth] using htot'
          rw [if_pos (by rfl), if_pos hd1, if_neg (by simp)]
          rfl
        · rw [if_neg (fun hee => he (List.isEmpty_iff.mp hee)), if_neg (by simp)]
          congr 1
          simp only [List.length_cons]
          omega

theorem braceSafe_eq_length (p : ByteStr)
    (hpd : ∀ k, k ≤ p.length → 0 ≤ fDepth (p.take k)) (hpb : fDepth p = 0) :
    braceSafe p = p.length := by
  unfold braceSafe
  rw [braceLoop_final p 0 0 none (by simpa using hpd) (by simpa using hpb)]
  cases p with
  | nil => rfl
  | cons b l => simp

theorem tailHold_eq_of_no_tag_suffix (p : ByteStr)
    (hps : ∀ k, k < p.length → (p.drop k).isPrefixOf toolCallTag = false) :
    tailHold p p.length = p.length := by
  have hnone : (List.range' (p.length - min toolCallTag.length p.length)
      (p.length - (p.length - min toolCallTag.length p.length))).find?
        (fun start => (slice p start p.length).isPrefixOf toolCallTag) = none := by
    rw [List.find?_eq_none]
    intro x hx
    have hxlt : x < p.length := by
      have h2 := (List.mem_range'_1.mp hx).2
      omega
    have hslice : slice p x p.length = p.drop x := by
      unfold slice
      exact List.take_of_length_le (by simp)
    rw [hslice, hps x hxlt]
    simp
  simp only [tailHold]
  rw [hnone]
  rfl

theorem safeStreamEnd_eq_length (p : ByteStr)
    (hpd : ∀ k, k ≤ p.length → 0 ≤ fDepth (p.take k)) (hpb : fDepth p = 0)
    (hpx : findSubstr toolCallTag p = none)
    (hps : ∀ k, k < p.length → (p.drop k).isPrefixOf toolCallTag = false) :
    safeStreamEnd p = p.length := by
  simp only [safeStreamEnd]
  rw [hpx, braceSafe_eq_length p hpd hpb, tailHold_eq_of_no_tag_suffix p hps]
  simp

/-- C1 counterexample, refuting the claim on three inputs that all end in a
well-formed JSON tool-call block: (i) with whitespace between content and
block, the returned prefix is re-trimmed, so `prefix ++ json` is not the
trimmed text; (ii) a `}` inside a string of the block derails the backward
brace scan, so no tool call is returned at all; (iii) when the content has an
unmatched `{`, the returned prefix has `safe_stream_end(prefix) < |prefix|`. -/
theorem C1_counterexample :
    (splitContentAndToolCalls (ascii "a \x7b\"tool_calls\":[]\x7d") =
        (ascii "a", some (ascii "\x7b\"tool_calls\":[]\x7d")) ∧
      ascii "a" ++ ascii "\x7b\"tool_calls\":[]\x7d" ≠
        rustTrimEnd (ascii "a \x7b\"tool_calls\":[]\x7d")) ∧
    (splitContentAndToolCalls (ascii "\x7b\"tool_calls\":[\"\x7d\"]\x7d") =
        (ascii "\x7b\"tool_calls\":[\"\x7d\"]\x7d", none) ∧
      ((jsonParse (ascii "\x7b\"tool_calls\":[\"\x7d\"]\x7d")).bind
          (fun v => (jget v toolCallsKey).bind jAsArr)).isSome = true) ∧
    (splitContentAndToolCalls (ascii "\x7b \x7b\"tool_calls\":[]\x7d") =
        (ascii "\x7b", some (ascii "\x7b\"tool_calls\":[]\x7d")) ∧
      safeStreamEnd (ascii "\x7b") ≠ (ascii "\x7b").length) := by
  exact ⟨⟨by rfl, by decide⟩, ⟨by rfl, by rfl⟩, ⟨by rfl, by decide⟩⟩

/-- C1 (amended): for a text whose trailing-whitespace trim splits as
`c ++ j`, where `j` is a JSON block that starts with `{`, ends with `}`, has
balanced braces that stay strictly positive in its interior (no stray braces
inside its strings), and parses with a `tool_calls` array,
`split_content_and_tool_calls` returns `(trim_end(c), Some(j))` — so the
prefix plus the block reconstitutes the trimmed text up to the whitespace
that separated them; and `safe_stream_end(prefix) = |prefix|` provided the
prefix has balanced, non-negatively nested braces and contains neither a
`<tool_call>` tag nor a trailing prefix of one. -/
theorem C1_amended (text c j p : ByteStr)
    (hsplit : rustTrimEnd text = c ++ j)
    (hhead : j.head? = some braceOpen)
    (hlast : j.getLast? = some braceClose)
    (hbal : fDepth j = 0)
    (hint : ∀ k, k < j.length → 0 < k → 0 < fDepth (j.take k))
    (hparse : ((jsonParse j).bind
      (fun v => (jget v toolCallsKey).bind jAsArr)).isSome = true)
    (hp : rustTrimEnd c = p)
    (hpd : ∀ k, k ≤ p.length → 0 ≤ fDepth (p.take k))
    (hpb : fDepth p = 0)
    (hpx : findSubstr toolCallTag p = none)
    (hps : ∀ k, k < p.length → (p.drop k).isPrefixOf toolCallTag = false) :
    splitContentAndToolCalls text = (p, some j) ∧ safeStreamEnd p = p.length := by
  refine ⟨?_, safeStreamEnd_eq_length p hpd hpb hpx hps⟩
  obtain ⟨j', rfl⟩ : ∃ j'', j = braceOpen :: j'' := by
    cases j with
    | nil => cases hhead
    | cons b j'' =>
      have hb : b = braceOpen := by simpa using hhead
      exact ⟨j'', by rw [hb]⟩
  unfold splitContentAndToolCalls
  rw [hsplit]
  have hlast' : (c ++ braceOpen :: j').getLast? = some braceClose := by
    rw [List.getLast?_append, hlast]
    rfl
  rw [if_neg (by rw [hlast']; simp [braceClose])]
  rw [jsonStart_append c j' hbal hint]
  have hdrop : (c ++ braceOpen :: j').drop c.length = braceOpen :: j' := by
    simp
  have htake : (c ++ braceOpen :: j').take c.length = c := by
    simp
  obtain ⟨v, hv⟩ : ∃ v, jsonParse (braceOpen :: j') = some v := by
    cases hjp : jsonParse (braceOpen :: j') with
    | none => rw [hjp] at hparse; simp [Option.bind] at hparse
    | some v => exact ⟨v, rfl⟩
  rw [hv] at hparse
  simp only [Option.some_bind] at hparse
  simp only [hdrop, htake, hp, hv]
  rw [if_pos hparse]

/-- C1 witness: the amended claim at the concrete text
`"Hello {"tool_calls":[]}"`. -/
theorem C1_witness :
    splitContentAndToolCalls (ascii "Hello \x7b\"tool_calls\":[]\x7d") =
      (ascii "Hello", some (ascii "\x7b\"tool_calls\":[]\x7d")) ∧
    safeStreamEnd (ascii "Hello") = (ascii "Hello").length :=
  C1_amended (ascii "Hello \x7b\"tool_calls\":[]\x7d") (ascii "Hello ")
    (ascii "\x7b\"tool_calls\":[]\x7d") (ascii "Hello")
    (by rfl) (by rfl) (by rfl) (by rfl) (by decide) (by rfl) (by rfl)
    (by decide) (by rfl) (by rfl) (by decide)


/-! ## C7: emulator parser and chunk boundaries -/

theorem findSub_eq_none_iff {α : Type} [DecidableEq α] (pat : List α) (l : List α) :
    findSub pat l = none ↔ ∀ k, ¬ pat <+: l.drop k := by
  induction l with
  | nil =>
    by_cases hp : pat = []
    · subst hp
      simp [findSub]
    · simp [findSub, List.isEmpty_iff, hp]
  | cons b l ih =>
    rw [findSub]
    by_cases hpre : pat.isPrefixOf (b :: l)
    · rw [if_pos hpre]
      simp only [reduceCtorEq, false_iff, not_forall, not_not]
      exact ⟨0, List.isPrefixOf_iff_prefix.mp hpre⟩
    · rw [if_neg hpre]
      simp only [Option.map_eq_none', ih]
      constructor
      · intro h k
        cases k with
        | zero =>
          simpa using fun hc => hpre (List.isPrefixOf_iff_prefix.mpr hc)
        | succ k => exact h k
      · intro h k
        exact h (k + 1)

theorem processChunk_noTrig (b c : List Char)
    (hno : findSubstrC ['\n', '$'] (b ++ c) = none)
    (hd : b = [] → c.head? ≠ some '$') :
    processChunk ⟨b, .normal, false⟩ c =
      if 2 < (b ++ c).length ∧ (b ++ c).getLast? ≠ some '\n' then
        ([.text ((b ++ c).take ((b ++ c).length - 2))],
          ⟨(b ++ c).drop ((b ++ c).length - 2), .normal, false⟩)
      else ([], ⟨b ++ c, .normal, false⟩) := by
  have hsplit : splitOnceStrC ['\n', '$'] (b ++ c) = none := by
    rw [splitOnceStrC, hno]
    rfl
  have hcond : (decide ((b ++ c).head? = some '$') && decide ((b ++ c).length = c.length)) = false := by
    by_cases hb : b = []
    · subst hb
      simp only [List.nil_append]
      simp [hd rfl]
    · have hlb : b.length ≠ 0 := by simpa [List.length_eq_zero] using hb
      have hlen : (b ++ c).length ≠ c.length := by
        simp only [List.length_append]
        omega
      rw [decide_eq_false hlen, Bool.and_false]
  have hfuel : 2 * (b ++ c).length + 2 = 2 * (b ++ c).length + 1 + 1 := rfl
  unfold processChunk
  simp only [hfuel, emLoop, hsplit, hcond, Bool.false_and, Bool.false_eq_true, if_false,
    Bool.and_eq_true, decide_eq_true_eq]
  by_cases hC : 2 < (b ++ c).length ∧ (b ++ c).getLast? ≠ some '\n'
  · have h2 : 2 < (b ++ c).length := hC.1
    have hne : (List.take ((b ++ c).length - 2) (b ++ c)).isEmpty = false := by
      rw [Bool.eq_false_iff]
      intro hEmp
      rw [List.isEmpty_iff] at hEmp
      rcases List.take_eq_nil_iff.mp hEmp with h | h
      · omega
      · rw [h] at h2
        simp at h2
    simp only [if_pos hC, hne, Bool.false_eq_true, if_false, List.nil_append]
  · simp only [if_neg hC]

theorem actionTexts_append (as bs : List EmuAction) :
    actionTexts (as ++ bs) = actionTexts as ++ actionTexts bs := by
  induction as with
  | nil => rfl
  | cons a rest ih =>
    cases a <;> simp [actionTexts, ih]

theorem coalesce_allText (as : List EmuAction) (h : allText as = true) :
    coalesce as = if as.isEmpty then [] else [.text (actionTexts as)] := by
  induction as with
  | nil => rfl
  | cons a rest ih =>
    cases a with
    | text t =>
      have hrest : allText rest = true := by
        simp only [allText, List.all_cons, Bool.and_eq_true] at h
        exact h.2
      rw [coalesce, ih hrest]
      cases rest with
      | nil => simp [actionTexts]
      | cons b bs => simp [actionTexts]
    | shellCommand t => simp [allText] at h
    | executeCode t => simp [allText] at h

theorem findSub_none_of_append {α : Type} [DecidableEq α] (pat l r : List α)
    (h : findSub pat (l ++ r) = none) : findSub pat l = none := by
  rw [findSub_eq_none_iff] at h ⊢
  intro k hk
  by_cases hkl : k ≤ l.length
  · exact h k (by
      rw [List.drop_append_of_le_length hkl]
      exact hk.trans (List.prefix_append _ _))
  · have : l.drop k = [] := List.drop_eq_nil_of_le (by omega)
    rw [this] at hk
    have hpat : pat = [] := List.prefix_nil.mp hk
    exact h k (by simp [hpat])

theorem findSub_none_of_drop {α : Type} [DecidableEq α] (pat l : List α) (k : Nat)
    (h : findSub pat l = none) : findSub pat (l.drop k) = none := by
  rw [findSub_eq_none_iff] at h ⊢
  intro j hj
  rw [List.drop_drop] at hj
  exact h (k + j) hj

theorem emRunLoop_cons (p : EmuParser) (ch : List Char) (rs : List (List Char)) :
    emRunLoop p (ch :: rs) = (processChunk p ch).1 ++ emRunLoop (processChunk p ch).2 rs := by
  rcases hp : processChunk p ch with ⟨acts, p2⟩
  simp only [emRunLoop, hp]

theorem emRunLoop_noTrig (cs : List (List Char)) : ∀ (b : List Char),
    findSubstrC ['\n', '$'] (b ++ cs.flatten) = none →
    (b = [] → cs.flatten.head? ≠ some '$') →
    allText (emRunLoop ⟨b, .normal, false⟩ cs) = true ∧
    actionTexts (emRunLoop ⟨b, .normal, false⟩ cs) = b ++ cs.flatten ∧
    (b ++ cs.flatten = [] → emRunLoop ⟨b, .normal, false⟩ cs = []) := by
  induction cs with
  | nil =>
    intro b hno hd
    rw [emRunLoop, emFlush]
    by_cases hb : b.isEmpty
    · rw [if_pos hb]
      rw [List.isEmpty_iff] at hb
      simp [allText, actionTexts, hb]
    · rw [if_neg hb]
      rw [List.isEmpty_iff] at hb
      simp [allText, actionTexts, hb]
  | cons c rest ih =>
    intro b hno hd
    have hnoc : findSubstrC ['\n', '$'] (b ++ c) = none := by
      rw [List.flatten_cons, ← List.append_assoc] at hno
      exact findSub_none_of_append _ _ _ hno
    have hdc : b = [] → c.head? ≠ some '$' := by
      intro hb hc
      apply hd hb
      rw [List.flatten_cons, List.head?_append, hc]
      rfl
    rw [emRunLoop_cons, processChunk_noTrig b c hnoc hdc]
    by_cases hC : 2 < (b ++ c).length ∧ (b ++ c).getLast? ≠ some '\n'
    · rw [if_pos hC]
      have h2 : 2 < (b ++ c).length := hC.1
      have hb' : (b ++ c).drop ((b ++ c).length - 2) ≠ [] := by
        intro hnil
        have hl := congrArg List.length hnil
        rw [List.length_drop, List.length_nil] at hl
        omega
      have hno' : findSubstrC ['\n', '$']
          ((b ++ c).drop ((b ++ c).length - 2) ++ rest.flatten) = none := by
        have h1 : findSubstrC ['\n', '$']
            (((b ++ c) ++ rest.flatten).drop ((b ++ c).length - 2)) = none := by
          apply findSub_none_of_drop
          rw [List.append_assoc, ← List.flatten_cons]
          exact hno
        rw [List.drop_append_of_le_length (by omega)] at h1
        exact h1
      obtain ⟨hA, hT, _⟩ := ih ((b ++ c).drop ((b ++ c).length - 2)) hno' (fun h => absurd h hb')
      refine ⟨?_, ?_, ?_⟩
      · simp only [allText] at hA ⊢
        rw [List.all_append, hA, Bool.and_true]
        rfl
      · rw [actionTexts_append, hT]
        simp only [actionTexts, List.append_nil, List.flatten_cons]
        rw [← List.append_assoc, List.take_append_drop, List.append_assoc]
      · intro habs
        rw [List.flatten_cons, ← List.append_assoc] at habs
        obtain ⟨hbc, -⟩ := List.append_eq_nil.mp habs
        rw [hbc] at h2
        simp at h2
    · rw [if_neg hC]
      have hd' : b ++ c = [] → rest.flatten.head? ≠ some '$' := by
        intro hbc
        obtain ⟨hb, hc⟩ := List.append_eq_nil.mp hbc
        intro hh
        apply hd hb
        rw [List.flatten_cons, hc, List.nil_append]
        exact hh
      have hno' : findSubstrC ['\n', '$'] ((b ++ c) ++ rest.flatten) = none := by
        rw [List.append_assoc, ← List.flatten_cons]
        exact hno
      obtain ⟨hA, hT, hE⟩ := ih (b ++ c) hno' hd'
      refine ⟨by simpa using hA, ?_, ?_⟩
      · rw [List.nil_append, hT, List.flatten_cons, List.append_assoc]
      · intro habs
        rw [List.flatten_cons, ← List.append_assoc] at habs
        rw [List.nil_append, hE habs]

theorem charChunks_flatten (l : List Char) : (charChunks l).flatten = l := by
  induction l with
  | nil => rfl
  | cons c rest ih => simp [charChunks] at ih ⊢; exact ih

theorem emRun_noTrig (l : List Char) (cs : List (List Char)) (hflat : cs.flatten = l)
    (hno : findSubstrC ['\n', '$'] l = none)
    (hd : l.head? ≠ some '$') :
    coalesce (emRun false cs) = if l.isEmpty then [] else [.text l] := by
  subst hflat
  obtain ⟨hA, hT, hE⟩ := emRunLoop_noTrig cs [] (by simpa using hno) (fun _ => hd)
  rw [emRun, emNew]
  by_cases hl : cs.flatten.isEmpty
  · rw [if_pos hl]
    rw [List.isEmpty_iff] at hl
    rw [hE (by simp [hl])]
    rfl
  · rw [if_neg hl]
    rw [coalesce_allText _ hA]
    rw [List.nil_append] at hT
    have hres : (emRunLoop ⟨[], .normal, false⟩ cs).isEmpty = false := by
      rw [Bool.eq_false_iff]
      intro hEmp
      rw [List.isEmpty_iff] at hEmp
      rw [hEmp] at hT
      rw [List.isEmpty_iff] at hl
      exact hl (hT.symm.trans rfl)
    rw [hres, hT]
    simp


/-- C7 counterexample: feeding `"$ a\n$ b\n"` as one chunk yields the text
`"$ a\n"` followed by the single shell command `b` (the `"\n$"` split runs
before the first-chunk `$` check, which fails because the buffer holds the
whole text), while feeding it one character at a time yields the two shell
commands `a` and `b` (each `$` arrives with an empty buffer, so
`buffer.len() == chunk.len()` passes), so the action sequences differ even
after coalescing adjacent texts. -/
theorem C7_counterexample :
    emRun false [['$', ' ', 'a', '\n', '$', ' ', 'b', '\n']] =
      [.text ['$', ' ', 'a', '\n'], .shellCommand ['b']] ∧
    emRun false (charChunks ['$', ' ', 'a', '\n', '$', ' ', 'b', '\n']) =
      [.shellCommand ['a'], .shellCommand ['b']] ∧
    coalesce (emRun false [['$', ' ', 'a', '\n', '$', ' ', 'b', '\n']]) ≠
      coalesce (emRun false (charChunks ['$', ' ', 'a', '\n', '$', ' ', 'b', '\n'])) := by
  decide

/-- C7 amended: for the shell-only emulator (code mode off), on an input that
contains no `"\n$"` trigger and does not start with `'$'`, the parser is
idempotent over chunk boundaries: every chunking yields, after coalescing
adjacent text actions, the same action sequence as the character-at-a-time
chunking, namely the whole input as a single text action. -/
theorem C7_amended (l : List Char) (cs : List (List Char))
    (hflat : cs.flatten = l)
    (hno : findSubstrC ['\n', '$'] l = none)
    (hd : l.head? ≠ some '$') :
    coalesce (emRun false cs) = coalesce (emRun false (charChunks l)) ∧
    coalesce (emRun false cs) = (if l.isEmpty then [] else [.text l]) := by
  have h1 := emRun_noTrig l cs hflat hno hd
  have h2 := emRun_noTrig l (charChunks l) (charChunks_flatten l) hno hd
  exact ⟨h1.trans h2.symm, h1⟩

/-- C7 witness: the amended claim at `"It costs $50"` split into two chunks. -/
theorem C7_witness :
    (coalesce (emRun false [['I', 't', ' ', 'c', 'o', 's', 't', 's', ' '], ['$', '5', '0']]) =
        coalesce (emRun false (charChunks ['I', 't', ' ', 'c', 'o', 's', 't', 's', ' ', '$', '5', '0'])) ∧
      coalesce (emRun false [['I', 't', ' ', 'c', 'o', 's', 't', 's', ' '], ['$', '5', '0']]) =
        (if (['I', 't', ' ', 'c', 'o', 's', 't', 's', ' ', '$', '5', '0'] : List Char).isEmpty then []
          else [.text ['I', 't', ' ', 'c', 'o', 's', 't', 's', ' ', '$', '5', '0']])) :=
  C7_amended ['I', 't', ' ', 'c', 'o', 's', 't', 's', ' ', '$', '5', '0']
    [['I', 't', ' ', 'c', 'o', 's', 't', 's', ' '], ['$', '5', '0']] (by decide) (by decide) (by decide)

/-! ## C3: stream emission order -/

theorem nativeLoop_allText (stops : List ByteStr) (pieces : List ByteStr) :
    ∀ (g : ByteStr) (s : Nat), nativeAllText (nativeLoop stops pieces g s).1 = true := by
  induction pieces with
  | nil => intro g s; rfl
  | cons piece rest ih =>
    intro g s
    rw [nativeLoop]
    by_cases hup : s < streamUpTo (g ++ piece)
    · simp only [if_pos hup]
      by_cases hstop : stops.any (fun st => st.isSuffixOf (g ++ piece))
      · rw [if_pos hstop]
        split <;> rfl
      · rw [if_neg hstop]
        rcases hr : nativeLoop stops rest (g ++ piece) (streamUpTo (g ++ piece)) with ⟨items2, g2, s2⟩
        have := ih (g ++ piece) (streamUpTo (g ++ piece))
        rw [hr] at this
        simp only [hr]
        simp only [nativeAllText, List.all_append] at this ⊢
        rw [this, Bool.and_true]
        split <;> rfl
    · simp only [if_neg hup]
      by_cases hstop : stops.any (fun st => st.isSuffixOf (g ++ piece))
      · rw [if_pos hstop]
        rfl
      · rw [if_neg hstop]
        rcases hr : nativeLoop stops rest (g ++ piece) s with ⟨items2, g2, s2⟩
        have := ih (g ++ piece) s
        rw [hr] at this
        simp only [hr]
        simpa using this

theorem noTextAfterTool_cons_text (s : ByteStr) (l : List NativeItem) :
    nativeNoTextAfterTool (.text s :: l) = nativeNoTextAfterTool l := rfl

theorem noTextAfterTool_cons_tool (m : ToolReqMsg) (l : List NativeItem) :
    nativeNoTextAfterTool (.toolReq m :: l) =
      l.all (fun item => match item with | NativeItem.text _ => false | _ => true) := rfl

theorem noTextAfterTool_prepend (A B : List NativeItem) (h : nativeAllText A = true) :
    nativeNoTextAfterTool (A ++ B) = nativeNoTextAfterTool B := by
  induction A with
  | nil => rfl
  | cons a rest ih =>
    cases a with
    | text s =>
      have hr : nativeAllText rest = true := by
        simp only [nativeAllText, List.all_cons, Bool.and_eq_true] at h
        exact h.2
      rw [List.cons_append, noTextAfterTool_cons_text, ih hr]
    | toolReq m => simp [nativeAllText] at h
    | usage p o => simp [nativeAllText] at h

theorem noTextAfterTool_tools_usage (ms : List ToolReqMsg) (p o : Nat) :
    nativeNoTextAfterTool (ms.map NativeItem.toolReq ++ [.usage p o]) = true := by
  cases ms with
  | nil => rfl
  | cons m rest =>
    rw [List.map_cons, List.cons_append, noTextAfterTool_cons_tool]
    rw [List.all_append, Bool.and_eq_true]
    constructor
    · rw [List.all_eq_true]
      intro x hx
      obtain ⟨m2, hm2, rfl⟩ := List.mem_map.mp hx
      rfl
    · rfl

theorem filterMap_toolReqOf_texts (A : List NativeItem) (h : nativeAllText A = true) :
    A.filterMap toolReqOf = [] := by
  induction A with
  | nil => rfl
  | cons a rest ih =>
    cases a with
    | text s =>
      have hr : nativeAllText rest = true := by
        simp only [nativeAllText, List.all_cons, Bool.and_eq_true] at h
        exact h.2
      simp [List.filterMap_cons, toolReqOf, ih hr]
    | toolReq m => simp [nativeAllText] at h
    | usage p o => simp [nativeAllText] at h

theorem filterMap_toolReqOf_map (ms : List ToolReqMsg) :
    (ms.map NativeItem.toolReq).filterMap toolReqOf = ms := by
  induction ms with
  | nil => rfl
  | cons m rest ih => simp [List.filterMap_cons, toolReqOf, ih]

theorem filter_usage_texts (A : List NativeItem) (h : nativeAllText A = true) :
    A.filter nativeIsUsage = [] := by
  induction A with
  | nil => rfl
  | cons a rest ih =>
    cases a with
    | text s =>
      have hr : nativeAllText rest = true := by
        simp only [nativeAllText, List.all_cons, Bool.and_eq_true] at h
        exact h.2
      simp [List.filter_cons, nativeIsUsage, ih hr]
    | toolReq m => simp [nativeAllText] at h
    | usage p o => simp [nativeAllText] at h

theorem filter_usage_map (ms : List ToolReqMsg) :
    (ms.map NativeItem.toolReq).filter nativeIsUsage = [] := by
  induction ms with
  | nil => rfl
  | cons m rest ih => simp [List.filter_cons, nativeIsUsage, ih]

theorem shape_assemble (items : List NativeItem) (hitems : nativeAllText items = true)
    (content generated : ByteStr) (streamed : Nat) (msgs : List ToolReqMsg) (p o : Nat) :
    ∃ A B,
      ((items ++
            (if streamed < content.length then
              if (content.drop streamed).isEmpty = true then []
              else [NativeItem.text (content.drop streamed)]
            else [])) ++
          msgs.map NativeItem.toolReq ++
          (if msgs.isEmpty = true ∧ content.isEmpty = true ∧ ¬generated.isEmpty = true then
            [NativeItem.text generated]
          else [])) ++ [NativeItem.usage p o] =
        A ++ msgs.map NativeItem.toolReq ++ B ++ [NativeItem.usage p o] ∧
      nativeAllText A = true ∧ nativeAllText B = true ∧ (msgs ≠ [] → B = []) := by
  refine ⟨items ++
      (if streamed < content.length then
        if (content.drop streamed).isEmpty = true then []
        else [NativeItem.text (content.drop streamed)]
      else []),
    (if msgs.isEmpty = true ∧ content.isEmpty = true ∧ ¬generated.isEmpty = true then
      [NativeItem.text generated]
    else []), ?_, ?_, ?_, ?_⟩
  · simp [List.append_assoc]
  · simp only [nativeAllText] at hitems ⊢
    rw [List.all_append, Bool.and_eq_true]
    refine ⟨hitems, ?_⟩
    split
    · split
      · rfl
      · rfl
    · rfl
  · split
    · rfl
    · rfl
  · intro hne
    rw [if_neg]
    intro hcond
    exact hne (List.isEmpty_iff.mp hcond.1)

theorem nativeStreamEvents_shape (stops : List ByteStr) (pieces : List ByteStr)
    (msgId : ByteStr) (p o : Nat) :
    ∃ (A B : List NativeItem),
      nativeStreamEvents stops pieces msgId p o =
        A ++ (nativeExtractedMsgs stops pieces msgId).map NativeItem.toolReq ++ B ++
          [.usage p o] ∧
      nativeAllText A = true ∧ nativeAllText B = true ∧
      (nativeExtractedMsgs stops pieces msgId ≠ [] → B = []) := by
  rcases hnl : nativeLoop stops pieces [] 0 with ⟨items, generated, streamed⟩
  have hitems : nativeAllText items = true := by
    have := nativeLoop_allText stops pieces [] 0
    rw [hnl] at this
    exact this
  rw [nativeStreamEvents, nativeExtractedMsgs]
  simp only [hnl]
  rcases hx : splitContentAndXmlToolCalls generated with _ | ⟨xc, xcalls⟩
  · rcases hj : splitContentAndToolCalls generated with ⟨jc, jtc⟩
    simp only [hx, hj]
    exact shape_assemble items hitems jc generated streamed _ p o
  · simp only [hx]
    exact shape_assemble items hitems xc generated streamed _ p o

theorem emuStreamLoop_cons (pr : EmuParser) (c : List Char) (rest : List (List Char)) :
    emuStreamLoop pr (c :: rest) =
      if (processChunk pr c).1.any actionIsTool then
        ((processChunk pr c).1.map emuActionItem, (processChunk pr c).2, true)
      else
        ((processChunk pr c).1.map emuActionItem ++ (emuStreamLoop (processChunk pr c).2 rest).1,
          (emuStreamLoop (processChunk pr c).2 rest).2.1,
          (emuStreamLoop (processChunk pr c).2 rest).2.2) := by
  rcases hc : processChunk pr c with ⟨acts, pr2⟩
  rcases hr : emuStreamLoop pr2 rest with ⟨items2, p2, stopped⟩
  simp only [emuStreamLoop, hc, hr]

theorem filter_emuUsage_actions (acts : List EmuAction) :
    (acts.map emuActionItem).filter emuIsUsage = [] := by
  induction acts with
  | nil => rfl
  | cons a rest ih =>
    cases a <;> simp [emuActionItem, List.filter_cons, emuIsUsage, ih]

theorem filter_emuUsage_loop (pieces : List (List Char)) :
    ∀ pr : EmuParser, ((emuStreamLoop pr pieces).1).filter emuIsUsage = [] := by
  induction pieces with
  | nil => intro pr; rfl
  | cons c rest ih =>
    intro pr
    rw [emuStreamLoop_cons]
    split
    · exact filter_emuUsage_actions _
    · simp only [List.filter_append, filter_emuUsage_actions, ih, List.nil_append]

theorem emuStreamLoop_stopped_append (pieces : List (List Char)) :
    ∀ (pr : EmuParser) (extra : List (List Char)),
      (emuStreamLoop pr pieces).2.2 = true →
      emuStreamLoop pr (pieces ++ extra) = emuStreamLoop pr pieces := by
  induction pieces with
  | nil =>
    intro pr extra h
    simp [emuStreamLoop] at h
  | cons c rest ih =>
    intro pr extra h
    rw [List.cons_append, emuStreamLoop_cons, emuStreamLoop_cons]
    rw [emuStreamLoop_cons] at h
    by_cases ht : (processChunk pr c).1.any actionIsTool
    · rw [if_pos ht]
      rw [if_pos ht]
    · rw [if_neg ht] at h ⊢
      rw [if_neg ht]
      have hrest : (emuStreamLoop (processChunk pr c).2 rest).2.2 = true := h
      rw [ih (processChunk pr c).2 extra hrest]

/-- C3 counterexample: on the emulator path the input `"$ ls\nabcdef"` makes
the parser emit a shell tool request followed by held-back text within the
same chunk, and the flush emits more text after it, so assistant text is sent
on the channel after a tool-request message. -/
theorem C3_counterexample :
    emuNoTextAfterTool
      (emuStreamEvents false [['$', ' ', 'l', 's', '\n', 'a', 'b', 'c', 'd', 'e', 'f']] 5 7) =
      false := by
  decide

/-- C3 amended: on the native path no text item follows a tool-request item,
the tool-request items are exactly the extracted messages in extraction
order, and the single usage record comes last; on the emulator path the
single usage record comes last, and once the per-piece loop reports a tool
call it consumes no further pieces (the generation stops). -/
theorem C3_amended (stops : List ByteStr) (pieces : List ByteStr) (msgId : ByteStr)
    (p o : Nat) (codeMode : Bool) (cpieces extra : List (List Char)) :
    nativeNoTextAfterTool (nativeStreamEvents stops pieces msgId p o) = true ∧
    (nativeStreamEvents stops pieces msgId p o).filterMap toolReqOf =
      nativeExtractedMsgs stops pieces msgId ∧
    (nativeStreamEvents stops pieces msgId p o).getLast? = some (.usage p o) ∧
    ((nativeStreamEvents stops pieces msgId p o).filter nativeIsUsage).length = 1 ∧
    (emuStreamEvents codeMode cpieces p o).getLast? = some (.usage p o) ∧
    ((emuStreamEvents codeMode cpieces p o).filter emuIsUsage).length = 1 ∧
    ((emuStreamLoop (emNew codeMode) cpieces).2.2 = true →
      emuStreamEvents codeMode (cpieces ++ extra) p o = emuStreamEvents codeMode cpieces p o) := by
  obtain ⟨A, B, hev, hA, hB, hBne⟩ := nativeStreamEvents_shape stops pieces msgId p o
  rcases he : emuStreamLoop (emNew codeMode) cpieces with ⟨items, pf, st⟩
  have hi := filter_emuUsage_loop cpieces (emNew codeMode)
  rw [he] at hi
  refine ⟨?_, ?_, ?_, ?_, ?_, ?_, ?_⟩
  · rw [hev, List.append_assoc, List.append_assoc, noTextAfterTool_prepend _ _ hA]
    cases hm : nativeExtractedMsgs stops pieces msgId with
    | nil =>
      simp only [hm, List.map_nil, List.nil_append]
      rw [noTextAfterTool_prepend _ _ hB]
      rfl
    | cons m ms =>
      have hB0 : B = [] := hBne (by rw [hm]; exact List.cons_ne_nil m ms)
      rw [hB0, List.nil_append]
      exact noTextAfterTool_tools_usage (m :: ms) p o
  · rw [hev]
    simp only [List.filterMap_append]
    rw [filterMap_toolReqOf_texts A hA, filterMap_toolReqOf_map, filterMap_toolReqOf_texts B hB]
    simp [toolReqOf]
  · rw [hev, List.getLast?_concat]
  · rw [hev]
    simp only [List.filter_append]
    rw [filter_usage_texts A hA, filter_usage_map, filter_usage_texts B hB]
    rfl
  · simp only [emuStreamEvents, he]
    rw [List.getLast?_concat]
  · simp only [emuStreamEvents, he]
    simp only [List.filter_append]
    rw [hi, filter_emuUsage_actions]
    rfl
  · intro h
    have h2 : (emuStreamLoop (emNew codeMode) cpieces).2.2 = true := by
      rw [he]
      exact h
    simp only [emuStreamEvents]
    rw [emuStreamLoop_stopped_append cpieces (emNew codeMode) extra h2]

/-- C3 witness: the amended claim at concrete streams, with the emulator
stop-consumption implication discharged on `"$ ls\n"`. -/
theorem C3_witness :
    nativeNoTextAfterTool (nativeStreamEvents [] [] [] 5 7) = true ∧
    (nativeStreamEvents [] [] [] 5 7).filterMap toolReqOf = nativeExtractedMsgs [] [] [] ∧
    (nativeStreamEvents [] [] [] 5 7).getLast? = some (.usage 5 7) ∧
    ((nativeStreamEvents [] [] [] 5 7).filter nativeIsUsage).length = 1 ∧
    (emuStreamEvents false [['$', ' ', 'l', 's', '\n']] 5 7).getLast? = some (.usage 5 7) ∧
    ((emuStreamEvents false [['$', ' ', 'l', 's', '\n']] 5 7).filter emuIsUsage).length = 1 ∧
    emuStreamEvents false ([['$', ' ', 'l', 's', '\n']] ++ [['x']]) 5 7 =
      emuStreamEvents false [['$', ' ', 'l', 's', '\n']] 5 7 := by
  have h := C3_amended [] [] [] 5 7 false [['$', ' ', 'l', 's', '\n']] [['x']]
  exact ⟨h.1, h.2.1, h.2.2.1, h.2.2.2.1, h.2.2.2.2.1, h.2.2.2.2.2.1,
    h.2.2.2.2.2.2 (by decide)⟩

/-! ## C2: safe_stream_end monotonicity -/

theorem braceLoop_append (t c : ByteStr) : ∀ (d : Int) (i : Nat) (s : Option Nat),
    braceLoop (t ++ c) d i s =
      braceLoop c (braceLoop t d i s).1 (i + t.length) (braceLoop t d i s).2 := by
  induction t with
  | nil =>
    intro d i s
    simp [braceLoop]
  | cons b t' ih =>
    intro d i s
    rw [List.cons_append]
    simp only [braceLoop]
    split_ifs with h1 h2 <;>
      · rw [ih]
        simp only [List.length_cons]
        have harith : i + 1 + t'.length = i + (t'.length + 1) := by omega
        rw [harith]

theorem braceLoop_mark_cases (l : ByteStr) : ∀ (d : Int) (i : Nat) (s : Option Nat),
    (braceLoop l d i s).2 = s ∨
    ∃ v, (braceLoop l d i s).2 = some v ∧ i ≤ v ∧ v ≤ i + l.length := by
  induction l with
  | nil =>
    intro d i s
    left
    rfl
  | cons b l' ih =>
    intro d i s
    have step : ∀ (d' : Int) (s₀ : Option Nat),
        (s₀ = s ∨ ∃ w, s₀ = some w ∧ i ≤ w ∧ w ≤ i + 1) →
        ((braceLoop l' d' (i + 1) s₀).2 = s ∨
          ∃ v, (braceLoop l' d' (i + 1) s₀).2 = some v ∧ i ≤ v ∧ v ≤ i + (b :: l').length) := by
      intro d' s₀ hs₀
      rcases ih d' (i + 1) s₀ with h | ⟨v, hv, hv1, hv2⟩
      · rcases hs₀ with rfl | ⟨w, rfl, hw1, hw2⟩
        · left
          exact h
        · right
          exact ⟨w, h, hw1, by rw [List.length_cons]; omega⟩
      · right
        exact ⟨v, hv, by omega, by rw [List.length_cons]; omega⟩
    rw [braceLoop]
    split_ifs with h1 h2 h3 h4 h5 <;>
      first
        | exact step _ _ (Or.inl rfl)
        | exact step _ _ (Or.inr ⟨i, rfl, le_refl i, by omega⟩)
        | exact step _ _ (Or.inr ⟨i + 1, rfl, by omega, by omega⟩)

theorem braceSafe_le_length (l : ByteStr) : braceSafe l ≤ l.length := by
  unfold braceSafe
  rcases braceLoop_mark_cases l 0 0 none with h | ⟨v, hv, _, hv2⟩
  · rw [h]
    simp
  · rw [hv]
    simpa using hv2

theorem braceSafe_mono (t c : ByteStr) : braceSafe t ≤ braceSafe (t ++ c) := by
  unfold braceSafe
  rw [braceLoop_append t c 0 0 none]
  simp only [Nat.zero_add]
  rcases braceLoop_mark_cases c (braceLoop t 0 0 none).1 t.length (braceLoop t 0 0 none).2
      with h | ⟨v, hv, hv1, hv2⟩
  · rw [h]
    cases hs : (braceLoop t 0 0 none).2 with
    | none =>
      simp only [Option.getD_none, List.length_append]
      omega
    | some m => simp
  · rw [hv]
    simp only [Option.getD_some]
    exact le_trans (braceSafe_le_length t) hv1

theorem safeStreamEnd_le_braceSafe (t : ByteStr) : safeStreamEnd t ≤ braceSafe t := by
  simp only [safeStreamEnd]
  exact le_trans (min_le_left _ _) (min_le_left _ _)

theorem safeStreamEnd_le_len (t : ByteStr) : safeStreamEnd t ≤ t.length :=
  le_trans (safeStreamEnd_le_braceSafe t) (braceSafe_le_length t)

theorem findSub_some_prefix {α : Type} [DecidableEq α] (pat l : List α) (k : Nat)
    (h : findSub pat l = some k) : pat <+: l.drop k := by
  induction l generalizing k with
  | nil =>
    rw [findSub] at h
    by_cases hp : pat.isEmpty
    · rw [if_pos hp] at h
      rw [List.isEmpty_iff] at hp
      simp [hp]
    · rw [if_neg hp] at h
      cases h
  | cons b l' ih =>
    rw [findSub] at h
    by_cases hpre : pat.isPrefixOf (b :: l')
    · rw [if_pos hpre] at h
      have h0 : k = 0 := (Option.some.inj h).symm
      subst h0
      exact List.isPrefixOf_iff_prefix.mp hpre
    · rw [if_neg hpre] at h
      obtain ⟨j, hj, hjk⟩ := Option.map_eq_some'.mp h
      subst hjk
      exact ih j hj

theorem findSub_min {α : Type} [DecidableEq α] (pat l : List α) (k : Nat)
    (h : findSub pat l = some k) : ∀ j, pat <+: l.drop j → k ≤ j := by
  induction l generalizing k with
  | nil =>
    intro j hj
    rw [findSub] at h
    by_cases hp : pat.isEmpty
    · rw [if_pos hp] at h
      have h0 : k = 0 := (Option.some.inj h).symm
      omega
    · rw [if_neg hp] at h
      cases h
  | cons b l' ih =>
    intro j hj
    rw [findSub] at h
    by_cases hpre : pat.isPrefixOf (b :: l')
    · rw [if_pos hpre] at h
      have h0 : k = 0 := (Option.some.inj h).symm
      omega
    · rw [if_neg hpre] at h
      obtain ⟨j', hj', hjk⟩ := Option.map_eq_some'.mp h
      cases j with
      | zero =>
        exact absurd (List.isPrefixOf_iff_prefix.mpr (by simpa using hj)) (by simpa using hpre)
      | succ j2 =>
        have := ih j' hj' j2 (by simpa using hj)
        omega

theorem findSub_complete {α : Type} [DecidableEq α] (pat l : List α) (k : Nat)
    (h : pat <+: l.drop k) : ∃ j, findSub pat l = some j ∧ j ≤ k := by
  cases hf : findSub pat l with
  | none => exact absurd h ((findSub_eq_none_iff pat l).mp hf k)
  | some j => exact ⟨j, rfl, findSub_min pat l j hf k h⟩

theorem prefix_append_cases {α : Type} (tag x y : List α) (h : tag <+: x ++ y) :
    (tag.length ≤ x.length → tag <+: x) ∧ (x.length ≤ tag.length → x <+: tag) := by
  obtain ⟨r, hr⟩ := h
  constructor
  · intro hl
    have h1 : (tag ++ r).take tag.length = tag := by
      rw [List.take_append_of_le_length le_rfl, List.take_length]
    rw [hr, List.take_append_of_le_length hl] at h1
    rw [← h1]
    exact List.take_prefix _ _
  · intro hl
    have h1 : (tag ++ r).take x.length = tag.take x.length :=
      List.take_append_of_le_length hl
    rw [hr, List.take_append_of_le_length le_rfl, List.take_length] at h1
    rw [h1]
    exact List.take_prefix _ _

theorem find?_range'_le (p : Nat → Bool) (n : Nat) : ∀ (a k : Nat), a ≤ k → k < a + n →
    p k = true → ∃ r, (List.range' a n).find? p = some r ∧ r ≤ k := by
  induction n with
  | zero =>
    intro a k h1 h2 _
    omega
  | succ n ih =>
    intro a k h1 h2 hp
    rw [List.range'_succ]
    by_cases hpa : p a = true
    · exact ⟨a, by rw [List.find?_cons_of_pos _ hpa], h1⟩
    · rw [List.find?_cons_of_neg _ hpa]
      have hak : a ≠ k := by
        intro he
        rw [he, hp] at hpa
        exact hpa rfl
      obtain ⟨r, hr, hrk⟩ := ih (a + 1) k (by omega) (by omega) hp
      exact ⟨r, hr, hrk⟩

theorem tailHold_le_of_slice_prefix (t : ByteStr) (r : Nat)
    (hrB : r < braceSafe t) (hpre : slice t r (braceSafe t) <+: toolCallTag) :
    tailHold t (braceSafe t) ≤ r := by
  have hBlen := braceSafe_le_length t
  have hslen : (slice t r (braceSafe t)).length = braceSafe t - r := by
    unfold slice
    rw [List.length_take, List.length_drop]
    omega
  have hle11 : braceSafe t - r ≤ toolCallTag.length := by
    have h := hpre.length_le
    rw [hslen] at h
    exact h
  have hcl : braceSafe t - min toolCallTag.length t.length ≤ r := by
    by_cases hmt : toolCallTag.length ≤ t.length
    · rw [min_eq_left hmt]
      omega
    · rw [min_eq_right (le_of_not_le hmt)]
      omega
  obtain ⟨r', hr', hr'k⟩ := find?_range'_le
    (fun start => (slice t start (braceSafe t)).isPrefixOf toolCallTag)
    (braceSafe t - (braceSafe t - min toolCallTag.length t.length))
    (braceSafe t - min toolCallTag.length t.length) r hcl (by omega)
    (List.isPrefixOf_iff_prefix.mpr hpre)
  simp only [tailHold]
  rw [hr']
  exact hr'k

theorem safeStreamEnd_le_of_slice_prefix (t : ByteStr) (r m : Nat)
    (hBm : braceSafe t ≤ m)
    (hpre : slice t r m <+: toolCallTag) : safeStreamEnd t ≤ r := by
  by_cases hBr : braceSafe t ≤ r
  · exact le_trans (safeStreamEnd_le_braceSafe t) hBr
  · push_neg at hBr
    have hsl : slice t r (braceSafe t) <+: slice t r m := by
      unfold slice
      have h1 : List.take (braceSafe t - r) (t.drop r) =
          (List.take (m - r) (t.drop r)).take (braceSafe t - r) := by
        rw [List.take_take, min_eq_left (by omega)]
      rw [h1]
      exact List.take_prefix _ _
    have hth := tailHold_le_of_slice_prefix t r hBr (hsl.trans hpre)
    calc safeStreamEnd t ≤ tailHold t (braceSafe t) := by
          simp only [safeStreamEnd]
          exact min_le_right _ _
      _ ≤ r := hth

theorem slice_append_left (t c : ByteStr) (r m : Nat) (hm : m ≤ t.length) :
    slice (t ++ c) r m = slice t r m := by
  by_cases hr : r ≤ t.length
  · unfold slice
    rw [List.drop_append_of_le_length hr]
    rw [List.take_append_of_le_length (by rw [List.length_drop]; omega)]
  · have h0 : m - r = 0 := by omega
    unfold slice
    rw [h0]
    simp

theorem xmlHold_bound (t c : ByteStr) :
    safeStreamEnd t ≤ (findSubstr toolCallTag (t ++ c)).getD (t ++ c).length := by
  cases hx : findSubstr toolCallTag (t ++ c) with
  | none =>
    simp only [Option.getD_none, List.length_append]
    exact le_trans (safeStreamEnd_le_len t) (by omega)
  | some k =>
    simp only [Option.getD_some]
    have hocc : toolCallTag <+: (t ++ c).drop k := findSub_some_prefix _ _ _ hx
    by_cases hk : t.length ≤ k
    · exact le_trans (safeStreamEnd_le_len t) hk
    · push_neg at hk
      have hdk : (t ++ c).drop k = t.drop k ++ c := List.drop_append_of_le_length (le_of_lt hk)
      rw [hdk] at hocc
      by_cases hlen : toolCallTag.length ≤ (t.drop k).length
      · have hin : toolCallTag <+: t.drop k := (prefix_append_cases _ _ _ hocc).1 hlen
        obtain ⟨j, hj, hjk⟩ := findSub_complete toolCallTag t k hin
        calc safeStreamEnd t ≤ (findSubstr toolCallTag t).getD t.length := by
              simp only [safeStreamEnd]
              exact le_trans (min_le_left _ _) (min_le_right _ _)
          _ = j := by rw [findSubstr, hj]; rfl
          _ ≤ k := hjk
      · push_neg at hlen
        have hpart : t.drop k <+: toolCallTag := (prefix_append_cases _ _ _ hocc).2 (le_of_lt hlen)
        apply safeStreamEnd_le_of_slice_prefix t k t.length (braceSafe_le_length t)
        have hsl : slice t k t.length = t.drop k := by
          unfold slice
          exact List.take_of_length_le (by simp)
        rw [hsl]
        exact hpart

theorem tailHold_bound (t c : ByteStr) :
    safeStreamEnd t ≤ tailHold (t ++ c) (braceSafe (t ++ c)) := by
  cases hf : (List.range'
      (braceSafe (t ++ c) - min toolCallTag.length (t ++ c).length)
      (braceSafe (t ++ c) - (braceSafe (t ++ c) - min toolCallTag.length (t ++ c).length))).find?
        (fun start => (slice (t ++ c) start (braceSafe (t ++ c))).isPrefixOf toolCallTag) with
  | none =>
    simp only [tailHold]
    rw [hf]
    simp only [Option.getD_none]
    exact le_trans (safeStreamEnd_le_braceSafe t) (braceSafe_mono t c)
  | some r =>
    simp only [tailHold]
    rw [hf]
    simp only [Option.getD_some]
    have hpr : (slice (t ++ c) r (braceSafe (t ++ c))).isPrefixOf toolCallTag = true := by
      have h := List.find?_some hf
      simpa using h
    have hmem := List.mem_of_find?_eq_some hf
    have hrange := List.mem_range'_1.mp hmem
    have hrB' : r < braceSafe (t ++ c) := by omega
    by_cases hr : t.length ≤ r
    · exact le_trans (safeStreamEnd_le_len t) hr
    · push_neg at hr
      have hm : min (braceSafe (t ++ c)) t.length ≤ t.length := min_le_right _ _
      have hBm : braceSafe t ≤ min (braceSafe (t ++ c)) t.length :=
        le_min (braceSafe_mono t c) (braceSafe_le_length t)
      apply safeStreamEnd_le_of_slice_prefix t r (min (braceSafe (t ++ c)) t.length) hBm
      have h1 : slice t r (min (braceSafe (t ++ c)) t.length) =
          slice (t ++ c) r (min (braceSafe (t ++ c)) t.length) :=
        (slice_append_left t c r _ hm).symm
      rw [h1]
      have h2 : slice (t ++ c) r (min (braceSafe (t ++ c)) t.length) <+:
          slice (t ++ c) r (braceSafe (t ++ c)) := by
        unfold slice
        have h3 : List.take (min (braceSafe (t ++ c)) t.length - r) ((t ++ c).drop r) =
            (List.take (braceSafe (t ++ c) - r) ((t ++ c).drop r)).take
              (min (braceSafe (t ++ c)) t.length - r) := by
          rw [List.take_take, min_eq_left (Nat.sub_le_sub_right (min_le_left _ _) r)]
        rw [h3]
        exact List.take_prefix _ _
      exact h2.trans (List.isPrefixOf_iff_prefix.mp hpr)

/-- C2: `safe_stream_end` is monotonic over stream extension — for every text
`t` and chunk `c`, `safe_stream_end(t ++ c) ≥ safe_stream_end(t)` (so in
particular `≥ safe_stream_end(t) - |c|`, and bytes classified safe are never
later excluded from the safe region). -/
theorem C2_safe_stream_end_monotone (t c : ByteStr) :
    safeStreamEnd t ≤ safeStreamEnd (t ++ c) ∧
    safeStreamEnd t - c.length ≤ safeStreamEnd (t ++ c) := by
  have h1 : safeStreamEnd t ≤ braceSafe (t ++ c) :=
    le_trans (safeStreamEnd_le_braceSafe t) (braceSafe_mono t c)
  have h2 := xmlHold_bound t c
  have h3 := tailHold_bound t c
  have hmain : safeStreamEnd t ≤ safeStreamEnd (t ++ c) := by
    simp only [safeStreamEnd] at h2 h3 ⊢
    exact le_min (le_min h1 h2) h3
  exact ⟨hmain, le_trans (Nat.sub_le _ _) hmain⟩

end Goose
